import Mathlib

/-!
LZ77 sliding-window compressor (`src/lz77-compress/lz77.c`) and Huffman coder
(`src/huffman-coding/huffman.c`)

A shallow embedding of the compressor and of the coder, and proofs of their
specified properties.

Conventions of the embedding

* A `char` is a natural number; `0` is the NUL byte.
* A `const char *` is the list of bytes stored from the pointer on; the
  terminating NUL is implicit at the end of the list (`strlen` stops at the
  first NUL or at the end of the list, whichever comes first).
* A C `int` is an unbounded `Int`.
* The singly linked list of codes (`EncodedLink`, with its `head` and `tail`
  pointers) is the list of its nodes in order; appending at `tail` is
  appending to the list.
* The `while` loop of `lz77_compress` takes a fuel argument; running out of
  fuel is `none`.
* The conventions of the Huffman coder stand at the head of its embedding.
-/

namespace Cookies

/-! ## Embedding of the source -/

/-- The macro `max(a, b) ((a)>=(b)?(a):(b))`. -/
def max (a b : Int) : Int := if a ≥ b then a else b

/-- The macro `min(a, b) ((a)<=(b)?(a):(b))`. -/
def min (a b : Int) : Int := if a ≤ b then a else b

/-- The code `(p, len, c)` of one step (`struct _PLC` without its `next` pointer). -/
structure PLC where
  p : Int
  len : Int
  c : Nat
deriving DecidableEq, Repr

/-- The encoder handle (`LZ77` in the source). -/
structure LZ77 where
  link : List PLC
  data : List Nat
  dic_size : Int
  la_buffer_size : Int
  cursor : Int
deriving DecidableEq, Repr

/-- The library function `strlen`: the number of bytes before the first NUL. -/
def strlen : List Nat → Nat
  | [] => 0
  | b :: rest => if b = 0 then 0 else strlen rest + 1

/-- The byte `str[i]`; the implicit terminator reads as NUL. -/
def charAt (str : List Nat) (i : Int) : Nat := str.getD i.toNat 0

/-- The `n` bytes that `memcpy(dst, str + start, n)` reads. -/
def memread (str : List Nat) (start n : Int) : List Nat :=
  (str.drop start.toNat).take n.toNat

/-- The library function `strncmp`: compares at most `n` bytes and stops after
a NUL; the result is the difference of the first differing bytes, or `0`. -/
def strncmp : List Nat → List Nat → Nat → Int
  | _, _, 0 => 0
  | s1, s2, n + 1 =>
    let c1 := s1.headD 0
    let c2 := s2.headD 0
    if c1 ≠ c2 then (c1 : Int) - (c2 : Int)
    else if c1 = 0 then 0
    else strncmp s1.tail s2.tail n

/-- A loop `for (x = lo; x <= hi; ++x) st = body st x`. -/
def forUpTo {σ : Type} (lo hi : Int) (body : σ → Int → σ) (init : σ) : σ :=
  (List.range (hi + 1 - lo).toNat).foldl (fun (st : σ) (k : Nat) => body st (lo + (k : Int))) init

/-- The function `substring_equal`: `sub1` is the lookahead substring, `sub2` the
dictionary substring; the scratch buffer `new_sub2` is the list of the bytes
written to it. -/
def substring_equal (str : List Nat) (sub1_begin sub1_end sub2_begin sub2_end : Int) : Bool :=
  let sub1_len := sub1_end - sub1_begin + 1
  let sub2_len := sub2_end - sub2_begin + 1
  if sub1_len ≤ 0 ∨ sub2_len ≤ 0 then false
  else
    let repetition := Int.tdiv sub1_len sub2_len
    let last := Int.tmod sub1_len sub2_len
    let new_sub2 : List Nat :=
      forUpTo 0 (repetition - 1) (fun cur _ => cur ++ memread str sub2_begin sub2_len) []
    let new_sub2 := new_sub2 ++ memread str sub2_begin last
    decide (strncmp (str.drop sub1_begin.toNat) new_sub2 sub1_len.toNat = 0)

/-- The locals `p`, `l`, `c` of `longest_match`. -/
structure Best where
  p : Int
  l : Int
  c : Nat
deriving DecidableEq, Repr

/-- The body of the inner loop of `longest_match` (lines 105-113). -/
def match_body (data : List Nat) (cursor length i : Int) (st : Best) (j : Int) : Best :=
  if substring_equal data (cursor + 1) i j cursor = true ∧ i - cursor > st.l then
    { p := cursor - j + 1
      l := i - cursor
      c := if i + 1 < length then charAt data (i + 1) else 0 }
  else st

/-- The two nested loops of `longest_match` (lines 99-115). -/
def match_search (data : List Nat) (cursor length dic_start end_buffer : Int) : Best :=
  forUpTo (cursor + 1) end_buffer
    (fun st i => forUpTo dic_start cursor (match_body data cursor length i) st)
    { p := -1, l := -1, c := 0 }

/-- The code that `longest_match` appends to the link at the current cursor. -/
def longest_match_plc (lz77 : LZ77) : PLC :=
  let cursor := lz77.cursor
  let length : Int := strlen lz77.data
  let dic_start := max 0 (cursor - lz77.dic_size + 1)
  let end_buffer := min (cursor + lz77.la_buffer_size) (length - 1)
  let best := match_search lz77.data cursor length dic_start end_buffer
  if best.p = -1 ∧ best.l = -1 then
    { p := 0, len := 0, c := if cursor + 1 < length then charAt lz77.data (cursor + 1) else best.c }
  else
    { p := best.p, len := best.l, c := best.c }

/-- The function `longest_match`: appends the code to the link and returns its length. -/
def longest_match (lz77 : LZ77) : LZ77 × Int :=
  let plc := longest_match_plc lz77
  ({ lz77 with link := lz77.link ++ [plc] }, plc.len)

/-- One iteration of the `while` loop of `lz77_compress` (lines 186-188). -/
def lz77_step (lz77 : LZ77) : LZ77 :=
  let r := longest_match lz77
  { r.1 with cursor := r.1.cursor + (r.2 + 1) }

/-- The `while (lz77.cursor < length - 1)` loop of `lz77_compress`. -/
def lz77_loop (length : Int) : Nat → LZ77 → Option LZ77
  | 0, lz77 => if lz77.cursor < length - 1 then none else some lz77
  | fuel + 1, lz77 =>
    if lz77.cursor < length - 1 then lz77_loop length fuel (lz77_step lz77) else some lz77

/-- What a call of `lz77_compress` does: it prints one of the two complaints and
returns, or it prints the codes of the link. -/
inductive Outcome where
  | emptyInput
  | invalidCapacity
  | compressed (link : List PLC)
deriving DecidableEq, Repr

/-- The handle as initialised at lines 176-181. -/
def lz77_init (str : List Nat) (dic_size buffer_size : Int) : LZ77 :=
  { link := [], data := str, dic_size := dic_size, la_buffer_size := buffer_size, cursor := -1 }

/-- The function `lz77_compress`. -/
def lz77_compress (fuel : Nat) (str : List Nat) (dic_size buffer_size : Int) : Option Outcome :=
  let length : Int := strlen str
  if length ≤ 0 then some .emptyInput
  else if dic_size ≤ 0 ∨ buffer_size ≤ 0 then some .invalidCapacity
  else (lz77_loop length fuel (lz77_init str dic_size buffer_size)).map
    (fun lz77 => .compressed lz77.link)

/-! ## Notions of the specification -/

/-- The dictionary bytes `span` stretched to length `n` (section 4.1): `n / |span|`
full copies of the span followed by its first `n % |span|` bytes. -/
def stretch (span : List Nat) (n : Nat) : List Nat :=
  (List.replicate (n / span.length) span).flatten ++ span.take (n % span.length)

/-- The bytes of `data` at the indices `a .. b`, both inclusive. -/
def span (data : List Nat) (a b : Int) : List Nat :=
  (data.drop a.toNat).take (b + 1 - a).toNat

/-- The dictionary span `[j, c]`, tiled, equals the lookahead span `[c + 1, i]`. -/
def tiledMatch (data : List Nat) (j c i : Int) : Prop :=
  stretch (span data j c) (i - c).toNat = span data (c + 1) i

instance instDecidableTiledMatch (data : List Nat) (j c i : Int) :
    Decidable (tiledMatch data j c i) := by
  unfold tiledMatch; infer_instance

/-- The decode rule of section 8 of the specification for one token (the
repository has no decoder, the rule only serves to state the round trip). If
`length > 0`, copy `length` bytes starting `offset` positions back from the end
of the output, tiling; then append `next_byte` unless it is the none sentinel
(NUL). -/
def decode_token (out : List Nat) (t : PLC) : List Nat :=
  let out1 :=
    if t.len > 0 then out ++ stretch (out.drop (out.length - t.p.toNat)) t.len.toNat else out
  if t.c = 0 then out1 else out1 ++ [t.c]

/-- The handle at the start of iteration `k` of the loop of `lz77_compress`. -/
def state_at (str : List Nat) (dic_size buffer_size : Int) (k : Nat) : LZ77 :=
  lz77_step^[k] (lz77_init str dic_size buffer_size)

/-- The cursor at the start of iteration `k`. -/
def cursor_at (str : List Nat) (dic_size buffer_size : Int) (k : Nat) : Int :=
  (state_at str dic_size buffer_size k).cursor

/-- The code emitted by iteration `k`. -/
def token_at (str : List Nat) (dic_size buffer_size : Int) (k : Nat) : PLC :=
  longest_match_plc (state_at str dic_size buffer_size k)

/-- The number of input bytes a code accounts for: its matched span and its
trailing byte when there is one. -/
def PLC.covered (t : PLC) : Int := t.len + (if t.c = 0 then 0 else 1)

/-- The first index of the dictionary range at cursor `c` (section 3). -/
def dicStart (dic_size c : Int) : Int := Cookies.max 0 (c - dic_size + 1)

/-- The last index of the lookahead range at cursor `c` for an input of length `N` (section 3). -/
def lookaheadEnd (buffer_size N c : Int) : Int := Cookies.min (c + buffer_size) (N - 1)

/-- The value a 32-bit two's-complement `int` holds for the unbounded result `x`. -/
def wrap32 (x : Int) : Int := (x + 2147483648) % 4294967296 - 2147483648

/-- The read `str[i]`, checked: `none` outside the indices `0 .. N - 1`. -/
def charAt? (str : List Nat) (i : Int) : Option Nat :=
  if 0 ≤ i then str[i.toNat]? else none

/-- The `n` bytes that `memcpy(dst, str + start, n)` reads, checked: `none`
unless all of the indices `start .. start + n - 1` are inside the string. -/
def memread? (str : List Nat) (start n : Int) : Option (List Nat) :=
  if n ≤ 0 then some []
  else if 0 ≤ start ∧ start + n ≤ str.length then some ((str.drop start.toNat).take n.toNat)
  else none

/-- The call `memcpy(cur, str + start, n); cur += n` on a scratch buffer of
`size` bytes of which `cur` are written: `none` when a read falls outside the
string or a write outside the buffer. -/
def memcpy_m (size : Int) (str : List Nat) (start n : Int) (cur : List Nat) :
    Option (List Nat) :=
  (memread? str start n).bind fun bytes =>
    if ((cur.length + bytes.length : Nat) : Int) ≤ size then some (cur ++ bytes) else none

/-- The call `strncmp(str + start, buf, n)` from byte `k` on, with `n` bytes
left to compare, every read checked. -/
def strncmp? (str : List Nat) (start : Int) (buf : List Nat) : Nat → Nat → Option Int
  | _, 0 => some 0
  | k, n + 1 =>
    match charAt? str (start + (k : Int)), buf[k]? with
    | some c1, some c2 =>
      if c1 ≠ c2 then some ((c1 : Int) - (c2 : Int))
      else if c1 = 0 then some 0
      else strncmp? str start buf (k + 1) n
    | _, _ => none

/-- A loop `for (i = lo; cond(i); ++i) st = body st i` on fuel: `none` when the
fuel runs out or the body fails. -/
def forLoop_m {σ : Type} (w : Int → Int) (cond : Int → Bool) (body : σ → Int → Option σ) :
    Nat → Int → σ → Option σ
  | 0, i, st => if cond i = true then none else some st
  | fuel + 1, i, st =>
    if cond i = true then
      (body st i).bind fun st1 => forLoop_m w cond body fuel (w (i + 1)) st1
    else some st

/-- The function `substring_equal` in the machine model. -/
def substring_equal_m (w : Int → Int) (fuel : Nat) (str : List Nat)
    (sub1_begin sub1_end sub2_begin sub2_end : Int) : Option Bool :=
  let sub1_len := w (w (sub1_end - sub1_begin) + 1)
  let sub2_len := w (w (sub2_end - sub2_begin) + 1)
  if sub1_len ≤ 0 ∨ sub2_len ≤ 0 then some false
  else
    let repetition := w (Int.tdiv sub1_len sub2_len)
    let last := w (Int.tmod sub1_len sub2_len)
    let size := w (w (repetition * sub2_len) + last)
    (forLoop_m w (fun i => decide (i < repetition))
      (fun cur _ => memcpy_m size str sub2_begin sub2_len cur) fuel 0 []).bind fun cur =>
    (memcpy_m size str sub2_begin last cur).bind fun new_sub2 =>
    (strncmp? str sub1_begin new_sub2 0 sub1_len.toNat).map fun r => decide (r = 0)

/-- The body of the inner loop of `longest_match` in the machine model. -/
def match_body_m (w : Int → Int) (fuel : Nat) (data : List Nat) (cursor length i : Int)
    (st : Best) (j : Int) : Option Best :=
  (substring_equal_m w fuel data (w (cursor + 1)) i j cursor).bind fun eq =>
    if eq = true ∧ w (i - cursor) > st.l then
      (if w (i + 1) < length then charAt? data (w (i + 1)) else some 0).map fun c =>
        { p := w (w (cursor - j) + 1), l := w (i - cursor), c := c }
    else some st

/-- The two nested loops of `longest_match` in the machine model. -/
def match_search_m (w : Int → Int) (fuel : Nat) (data : List Nat)
    (cursor length dic_start end_buffer : Int) : Option Best :=
  forLoop_m w (fun i => decide (i ≤ end_buffer))
    (fun st i =>
      forLoop_m w (fun j => decide (j ≤ cursor)) (match_body_m w fuel data cursor length i)
        fuel dic_start st)
    fuel (w (cursor + 1)) { p := -1, l := -1, c := 0 }

/-- The code that `longest_match` appends, in the machine model. -/
def longest_match_plc_m (w : Int → Int) (fuel : Nat) (lz77 : LZ77) : Option PLC :=
  let cursor := lz77.cursor
  let length : Int := w (strlen lz77.data)
  let dic_start := max 0 (w (w (cursor - lz77.dic_size) + 1))
  let end_buffer := min (w (cursor + lz77.la_buffer_size)) (w (length - 1))
  (match_search_m w fuel lz77.data cursor length dic_start end_buffer).bind fun best =>
    if best.p = -1 ∧ best.l = -1 then
      (if w (cursor + 1) < length then charAt? lz77.data (w (cursor + 1))
        else some best.c).map fun c => { p := 0, len := 0, c := c }
    else some { p := best.p, len := best.l, c := best.c }

/-- One iteration of the loop of `lz77_compress` in the machine model. -/
def lz77_step_m (w : Int → Int) (fuel : Nat) (lz77 : LZ77) : Option LZ77 :=
  (longest_match_plc_m w fuel lz77).map fun plc =>
    { lz77 with link := lz77.link ++ [plc], cursor := w (lz77.cursor + w (plc.len + 1)) }

/-- The loop of `lz77_compress` in the machine model; `inner` is the fuel of the
loops of each iteration. -/
def lz77_loop_m (w : Int → Int) (inner : Nat) (length : Int) : Nat → LZ77 → Option LZ77
  | 0, lz77 => if lz77.cursor < w (length - 1) then none else some lz77
  | fuel + 1, lz77 =>
    if lz77.cursor < w (length - 1) then
      (lz77_step_m w inner lz77).bind fun lz1 => lz77_loop_m w inner length fuel lz1
    else some lz77

/-- The function `lz77_compress` in the machine model. -/
def lz77_compress_m (w : Int → Int) (fuel : Nat) (str : List Nat) (dic_size buffer_size : Int) :
    Option Outcome :=
  let length : Int := w (strlen str)
  if length ≤ 0 then some .emptyInput
  else if dic_size ≤ 0 ∨ buffer_size ≤ 0 then some .invalidCapacity
  else (lz77_loop_m w fuel length fuel (lz77_init str dic_size buffer_size)).map
    (fun lz77 => .compressed lz77.link)

/-! ## Embedding of the Huffman coder (`src/huffman-coding/huffman.c`)

A node pointer is the position of the node in the doubly linked dictionary
list: every node the program allocates is appended to that list and none is
ever removed, so `head` is position 0, `tail` the last position, `next` the
following position, and the list of nodes in order is the whole heap. A code
string is the list of its characters before the terminator. The field `ch` is
an `Int`: the byte of the input for a node of the dictionary, -1 for a virtual
node; a weight is an unbounded `Int`, which agrees with the `int` of the source
as long as no weight exceeds `INT_MAX`. The `do`-`while` loop of
`build_huffman_tree` and the recursion of `fill_huffmancode` run on fuel. -/

/-- The struct `_HuffmanTreeNode`, without `next` and `prev`. -/
structure HuffmanTreeNode where
  ch : Int
  weight : Int
  parent : Option Nat
  lchild : Option Nat
  rchild : Option Nat
  intree : Bool
  virtual : Bool
  code : Option (List Char)
deriving DecidableEq, Repr

/-- The struct `HuffmanCode`; `nodes` is the dictionary list from `head` to `tail`. -/
structure HuffmanCode where
  data : List Nat
  ch_num : Int
  tree : Option Nat
  nodes : List HuffmanTreeNode
deriving DecidableEq, Repr

/-- The lines `print_huffman_code` prints: character, weight and code of the
nodes before the first virtual one. -/
def print_huffman_code (hfc : HuffmanCode) : List (Int × Int × Option (List Char)) :=
  (hfc.nodes.takeWhile fun nd => !nd.virtual).map fun nd => (nd.ch, nd.weight, nd.code)

/-! ## Notions for the Huffman coder -/

/-- Parent and child pointers that form a forest: a child sits before its
parent in the list, parent and child pointers agree, and a node has two
different children or none. -/
structure PreShape (par lch rch : Nat → Option Nat) (len : Nat) : Prop where
  par_lt : ∀ i p, par i = some p → i < p ∧ p < len ∧ (lch p = some i ∨ rch p = some i)
  lch_par : ∀ i a, lch i = some a → par a = some i
  rch_par : ∀ i a, rch i = some a → par a = some i
  ch_ne : ∀ i a b, lch i = some a → rch i = some b → a ≠ b
  lch_none_iff : ∀ i, lch i = none ↔ rch i = none

/-- The node `n` is reached from the node `x` by following parent pointers. -/
inductive Anc (par : Nat → Option Nat) : Nat → Nat → Prop where
  | refl (x : Nat) : Anc par x x
  | step (x p n : Nat) : par x = some p → Anc par p n → Anc par x n

theorem strlen_eq_length (s : List Nat) (h0 : ∀ x ∈ s, x ≠ 0) : strlen s = s.length := by
  induction s with
  | nil => rfl
  | cons b rest ih =>
    have hb : b ≠ 0 := h0 b (List.mem_cons_self _ _)
    have hr : ∀ x ∈ rest, x ≠ 0 := fun x hx => h0 x (List.mem_cons_of_mem _ hx)
    simp [strlen, hb, ih hr]

theorem strncmp_eq_zero_iff (n : Nat) : ∀ (s1 s2 : List Nat), s2.length = n → n ≤ s1.length →
    (∀ x ∈ s1.take n, x ≠ 0) → (strncmp s1 s2 n = 0 ↔ s1.take n = s2) := by
  induction n with
  | zero =>
    intro s1 s2 h2 _ _
    have : s2 = [] := List.eq_nil_of_length_eq_zero h2
    simp [strncmp, this]
  | succ n ih =>
    intro s1 s2 h2 h1 h0
    match s1, s2, h1, h2 with
    | a :: s1, b :: s2, h1, h2 =>
      have ha : a ≠ 0 := h0 a (by simp)
      have h0r : ∀ x ∈ s1.take n, x ≠ 0 := fun x hx => h0 x (by simp [hx])
      have hih := ih s1 s2 (by simpa using h2) (by simpa using h1) h0r
      by_cases hab : a = b
      · subst hab
        simp [strncmp, ha, hih]
      · have : (a : Int) - (b : Int) ≠ 0 := by omega
        simp [strncmp, hab, this]

theorem forUpTo_induction {σ : Type} (lo hi : Int) (body : σ → Int → σ) (init : σ)
    (P : Int → σ → Prop) (h0 : P lo init)
    (hstep : ∀ x st, lo ≤ x → x ≤ hi → P x st → P (x + 1) (body st x)) :
    P (lo + ((hi + 1 - lo).toNat : Int)) (forUpTo lo hi body init) := by
  unfold forUpTo
  have key : ∀ n : Nat, n ≤ (hi + 1 - lo).toNat →
      P (lo + (n : Int))
        ((List.range n).foldl (fun (st : σ) (k : Nat) => body st (lo + (k : Int))) init) := by
    intro n
    induction n with
    | zero => intro _; simpa using h0
    | succ n ih =>
      intro hn
      rw [List.range_succ, List.foldl_append]
      have := hstep (lo + (n : Int)) _ (by omega) (by omega) (ih (by omega))
      simpa [add_assoc] using this
  exact key _ (le_refl _)

/-! ## The comparator -/

theorem length_span (data : List Nat) (a b : Int) (ha : 0 ≤ a)
    (hb : b < data.length) : (span data a b).length = (b + 1 - a).toNat := by
  simp only [span, List.length_take, List.length_drop]
  omega

theorem length_stretch (sp : List Nat) (n : Nat) (hsp : 0 < sp.length) :
    (stretch sp n).length = n := by
  have hmod : n % sp.length < sp.length := Nat.mod_lt _ hsp
  simp only [stretch, List.length_append, List.length_flatten, List.map_replicate,
    List.sum_replicate, List.length_take, smul_eq_mul]
  rw [Nat.min_eq_left (le_of_lt hmod), Nat.mul_comm]
  exact Nat.div_add_mod n sp.length

theorem foldl_append_chunk (chunk : List Nat) (n : Nat) :
    (List.range n).foldl (fun (cur : List Nat) (_ : Nat) => cur ++ chunk) [] =
      (List.replicate n chunk).flatten := by
  induction n with
  | zero => rfl
  | succ n ih =>
    rw [List.range_succ, List.foldl_append, ih, List.replicate_succ']
    simp

/-- With both spans non-empty and the dictionary span inside the string, the
scratch buffer of `substring_equal` is the stretched dictionary span. -/
theorem substring_equal_eq (str : List Nat) (a b c d : Int) (hab : a ≤ b) (hc : 0 ≤ c)
    (hcd : c ≤ d) (hd : d < str.length) :
    substring_equal str a b c d =
      decide (strncmp (str.drop a.toNat) (stretch (span str c d) (b - a + 1).toNat)
        (b - a + 1).toNat = 0) := by
  have hlen : (span str c d).length = (d - c + 1).toNat := by
    rw [length_span str c d hc hd]; congr 1; omega
  have h1 : ¬ (b - a + 1 ≤ 0 ∨ d - c + 1 ≤ 0) := by omega
  obtain ⟨n, hn⟩ : ∃ n : Nat, b - a + 1 = (n : Int) := ⟨(b - a + 1).toNat, by omega⟩
  obtain ⟨m, hm⟩ : ∃ m : Nat, d - c + 1 = (m : Int) := ⟨(d - c + 1).toNat, by omega⟩
  have hm0 : 0 < m := by omega
  have hrep : (Int.tdiv (b - a + 1) (d - c + 1)).toNat = n / m := by
    rw [hn, hm, Int.tdiv_eq_ediv (by omega) (by omega), ← Int.natCast_div]
    exact Int.toNat_ofNat _
  have hlast : (Int.tmod (b - a + 1) (d - c + 1)).toNat = n % m := by
    rw [hn, hm, Int.tmod_eq_emod (by omega) (by omega), ← Int.natCast_mod]
    exact Int.toNat_ofNat _
  have hchunk : memread str c (d - c + 1) = span str c d := by
    unfold memread span; congr 1; omega
  have hmodlt : n % m < m := Nat.mod_lt _ hm0
  have htail : memread str c (Int.tmod (b - a + 1) (d - c + 1)) = (span str c d).take (n % m) := by
    unfold memread span
    rw [hlast, List.take_take]
    congr 1
    omega
  have hcount : (Int.tdiv (b - a + 1) (d - c + 1) - 1 + 1 - 0).toNat = n / m := by
    rw [← hrep]; congr 1; omega
  unfold substring_equal
  simp only [h1, if_false, forUpTo, hcount, foldl_append_chunk, hchunk, htail]
  have hlm : (span str c d).length = m := by rw [hlen, hm]; simp
  simp only [stretch, hlm, hn, Int.toNat_ofNat]

/-- At a step of the search the comparator decides the tiled match of the specification. -/
theorem substring_equal_iff (data : List Nat) (h0 : ∀ x ∈ data, x ≠ 0) (j c i : Int)
    (hj : 0 ≤ j) (hjc : j ≤ c) (hci : c < i) (hi : i < data.length) :
    substring_equal data (c + 1) i j c = true ↔ tiledMatch data j c i := by
  rw [substring_equal_eq data (c + 1) i j c (by omega) hj hjc (by omega)]
  have hlen : (span data j c).length = (c + 1 - j).toNat :=
    length_span data j c hj (by omega)
  have e1 : (i - (c + 1) + 1).toNat = (i - c).toNat := by congr 1; omega
  have e2 : (i + 1 - (c + 1)).toNat = (i - c).toNat := by congr 1; omega
  rw [e1, decide_eq_true_eq]
  rw [strncmp_eq_zero_iff (i - c).toNat _ _ (length_stretch _ _ (by omega))
    (by simp only [List.length_drop]; omega)
    (fun x hx => h0 x (List.mem_of_mem_drop (List.mem_of_mem_take hx)))]
  unfold tiledMatch span
  rw [e2]
  exact eq_comm

/-! ## The search of `longest_match` -/

/-- The inner loop over the dictionary starts `j`, for one lookahead end `i`:
nothing changes when the best length is already `i - cursor` or more; otherwise
the first matching `j`, if there is one, is recorded. -/
theorem inner_loop_spec (data : List Nat) (cursor length i dic_start : Int) (st : Best) :
    (i - cursor ≤ st.l →
      forUpTo dic_start cursor (match_body data cursor length i) st = st) ∧
    (st.l < i - cursor →
      (forUpTo dic_start cursor (match_body data cursor length i) st = st ∧
        ∀ j, dic_start ≤ j → j ≤ cursor → substring_equal data (cursor + 1) i j cursor = false) ∨
      (∃ j, dic_start ≤ j ∧ j ≤ cursor ∧ substring_equal data (cursor + 1) i j cursor = true ∧
        (∀ j0, dic_start ≤ j0 → j0 < j → substring_equal data (cursor + 1) i j0 cursor = false) ∧
        forUpTo dic_start cursor (match_body data cursor length i) st =
          ⟨cursor - j + 1, i - cursor, if i + 1 < length then charAt data (i + 1) else 0⟩)) := by
  constructor
  · intro hl
    apply forUpTo_induction dic_start cursor (match_body data cursor length i) st
      (fun _ st1 => st1 = st) rfl
    intro x st1 _ _ h
    subst h
    have : ¬ (i - cursor > st1.l) := by omega
    simp [match_body, this]
  · intro hl
    have key := forUpTo_induction dic_start cursor (match_body data cursor length i) st
      (fun x st1 =>
        (st1 = st ∧ ∀ j, dic_start ≤ j → j < x →
          substring_equal data (cursor + 1) i j cursor = false) ∨
        (∃ j, dic_start ≤ j ∧ j ≤ cursor ∧ substring_equal data (cursor + 1) i j cursor = true ∧
          (∀ j0, dic_start ≤ j0 → j0 < j →
            substring_equal data (cursor + 1) i j0 cursor = false) ∧
          st1 = ⟨cursor - j + 1, i - cursor, if i + 1 < length then charAt data (i + 1) else 0⟩))
      (Or.inl ⟨rfl, fun j h1 h2 => absurd h2 (by omega)⟩)
      (by
        intro x st1 hx1 hx2 h
        rcases h with ⟨rfl, hnone⟩ | ⟨j, hj1, hj2, hj3, hj4, rfl⟩
        · by_cases ht : substring_equal data (cursor + 1) i x cursor = true
          · right
            refine ⟨x, hx1, hx2, ht, fun j0 h1 h2 => hnone j0 h1 h2, ?_⟩
            simp [match_body, ht, hl]
          · left
            have ht2 : substring_equal data (cursor + 1) i x cursor = false := by
              simpa using ht
            refine ⟨by simp [match_body, ht2], fun j h1 h2 => ?_⟩
            by_cases hjx : j = x
            · subst hjx; exact ht2
            · exact hnone j h1 (by omega)
        · right
          refine ⟨j, hj1, hj2, hj3, hj4, ?_⟩
          simp [match_body])
    rcases key with ⟨h1, h2⟩ | ⟨j, hj1, hj2, hj3, hj4, h5⟩
    · left
      exact ⟨h1, fun j hj hjc => h2 j hj (by omega)⟩
    · right
      exact ⟨j, hj1, hj2, hj3, hj4, h5⟩

/-- The two nested loops: either nothing matched and the locals keep their
initial values, or the locals describe the largest matching lookahead end `i`
and, for it, the smallest matching dictionary start `j`. -/
theorem match_search_spec (data : List Nat) (cursor length dic_start end_buffer : Int) :
    (match_search data cursor length dic_start end_buffer = ⟨-1, -1, 0⟩ ∧
      ∀ i j, cursor < i → i ≤ end_buffer → dic_start ≤ j → j ≤ cursor →
        substring_equal data (cursor + 1) i j cursor = false) ∨
    (∃ i j, cursor < i ∧ i ≤ end_buffer ∧ dic_start ≤ j ∧ j ≤ cursor ∧
      substring_equal data (cursor + 1) i j cursor = true ∧
      (∀ j0, dic_start ≤ j0 → j0 < j → substring_equal data (cursor + 1) i j0 cursor = false) ∧
      (∀ i2 j2, i < i2 → i2 ≤ end_buffer → dic_start ≤ j2 → j2 ≤ cursor →
        substring_equal data (cursor + 1) i2 j2 cursor = false) ∧
      match_search data cursor length dic_start end_buffer =
        ⟨cursor - j + 1, i - cursor, if i + 1 < length then charAt data (i + 1) else 0⟩) := by
  have key := forUpTo_induction (cursor + 1) end_buffer
    (fun st i => forUpTo dic_start cursor (match_body data cursor length i) st)
    ⟨-1, -1, 0⟩
    (fun x st =>
      (st = ⟨-1, -1, 0⟩ ∧ ∀ i j, cursor < i → i < x → dic_start ≤ j → j ≤ cursor →
        substring_equal data (cursor + 1) i j cursor = false) ∨
      (∃ i j, cursor < i ∧ i < x ∧ i ≤ end_buffer ∧ dic_start ≤ j ∧ j ≤ cursor ∧
        substring_equal data (cursor + 1) i j cursor = true ∧
        (∀ j0, dic_start ≤ j0 → j0 < j →
          substring_equal data (cursor + 1) i j0 cursor = false) ∧
        (∀ i2 j2, i < i2 → i2 < x → dic_start ≤ j2 → j2 ≤ cursor →
          substring_equal data (cursor + 1) i2 j2 cursor = false) ∧
        st = ⟨cursor - j + 1, i - cursor, if i + 1 < length then charAt data (i + 1) else 0⟩))
    (Or.inl ⟨rfl, fun i j h1 h2 => absurd h2 (by omega)⟩)
    (by
      intro x st hx1 hx2 h
      have hlt : st.l < x - cursor := by
        rcases h with ⟨rfl, _⟩ | ⟨i, j, _, hi2, _, _, _, _, _, _, rfl⟩
        · show (-1 : Int) < x - cursor
          omega
        · show i - cursor < x - cursor
          omega
      rcases (inner_loop_spec data cursor length x dic_start st).2 hlt with
        ⟨hr, hnone⟩ | ⟨j, hj1, hj2, hj3, hj4, hr⟩
      · simp only [hr]
        rcases h with ⟨rfl, hno⟩ | ⟨i, j, h1, h2, h3, h4, h5, h6, h7, h8, rfl⟩
        · left
          refine ⟨rfl, fun i j hi1 hi2 hj1 hj2 => ?_⟩
          by_cases hix : i = x
          · subst hix; exact hnone j hj1 hj2
          · exact hno i j hi1 (by omega) hj1 hj2
        · right
          refine ⟨i, j, h1, by omega, h3, h4, h5, h6, h7, fun i2 j2 hi1 hi2 hj1 hj2 => ?_, rfl⟩
          by_cases hix : i2 = x
          · subst hix; exact hnone j2 hj1 hj2
          · exact h8 i2 j2 hi1 (by omega) hj1 hj2
      · right
        exact ⟨x, j, by omega, by omega, hx2, hj1, hj2, hj3, hj4,
          fun i2 j2 hi1 hi2 => absurd hi2 (by omega), hr⟩)
  rcases key with ⟨h1, h2⟩ | ⟨i, j, h1, h2, h3, h4, h5, h6, h7, h8, h9⟩
  · left
    exact ⟨h1, fun i j hi1 hi2 => h2 i j hi1 (by omega)⟩
  · right
    exact ⟨i, j, h1, h3, h4, h5, h6, h7, fun i2 j2 hi1 hi2 => h8 i2 j2 hi1 (by omega), h9⟩

theorem max_zero_nonneg (a : Int) : 0 ≤ Cookies.max 0 a := by
  unfold Cookies.max; split <;> omega

theorem min_le_right (a b : Int) : Cookies.min a b ≤ b := by
  unfold Cookies.min; split <;> omega

/-- The code of one step, in the words of the specification. At a cursor with
at least one byte ahead, either no dictionary start and lookahead end match and
the code is `(0, 0, data[cursor + 1])`, or the code describes the largest
matching lookahead end `i` and, for it, the smallest matching start `j`. -/
theorem longest_match_plc_spec (lz : LZ77) (h0 : ∀ x ∈ lz.data, x ≠ 0)
    (hc2 : lz.cursor + 1 < lz.data.length) :
    (longest_match_plc lz = ⟨0, 0, charAt lz.data (lz.cursor + 1)⟩ ∧
      ∀ i j, lz.cursor < i →
        i ≤ Cookies.min (lz.cursor + lz.la_buffer_size) ((lz.data.length : Int) - 1) →
        Cookies.max 0 (lz.cursor - lz.dic_size + 1) ≤ j → j ≤ lz.cursor →
        ¬ tiledMatch lz.data j lz.cursor i) ∨
    (∃ i j, lz.cursor < i ∧
      i ≤ Cookies.min (lz.cursor + lz.la_buffer_size) ((lz.data.length : Int) - 1) ∧
      Cookies.max 0 (lz.cursor - lz.dic_size + 1) ≤ j ∧ j ≤ lz.cursor ∧
      tiledMatch lz.data j lz.cursor i ∧
      (∀ j0, Cookies.max 0 (lz.cursor - lz.dic_size + 1) ≤ j0 → j0 < j →
        ¬ tiledMatch lz.data j0 lz.cursor i) ∧
      (∀ i2 j2, i < i2 →
        i2 ≤ Cookies.min (lz.cursor + lz.la_buffer_size) ((lz.data.length : Int) - 1) →
        Cookies.max 0 (lz.cursor - lz.dic_size + 1) ≤ j2 → j2 ≤ lz.cursor →
        ¬ tiledMatch lz.data j2 lz.cursor i2) ∧
      longest_match_plc lz =
        ⟨lz.cursor - j + 1, i - lz.cursor,
          if i + 1 < (lz.data.length : Int) then charAt lz.data (i + 1) else 0⟩) := by
  have hlen : strlen lz.data = lz.data.length := strlen_eq_length _ h0
  have hD := max_zero_nonneg (lz.cursor - lz.dic_size + 1)
  have hE := min_le_right (lz.cursor + lz.la_buffer_size) ((lz.data.length : Int) - 1)
  have hiff : ∀ i j, lz.cursor < i →
      i ≤ Cookies.min (lz.cursor + lz.la_buffer_size) ((lz.data.length : Int) - 1) →
      Cookies.max 0 (lz.cursor - lz.dic_size + 1) ≤ j → j ≤ lz.cursor →
      (substring_equal lz.data (lz.cursor + 1) i j lz.cursor = true ↔
        tiledMatch lz.data j lz.cursor i) :=
    fun i j h1 h2 h3 h4 =>
      substring_equal_iff lz.data h0 j lz.cursor i (by omega) h4 h1 (by omega)
  have hno : ∀ i j, lz.cursor < i →
      i ≤ Cookies.min (lz.cursor + lz.la_buffer_size) ((lz.data.length : Int) - 1) →
      Cookies.max 0 (lz.cursor - lz.dic_size + 1) ≤ j → j ≤ lz.cursor →
      substring_equal lz.data (lz.cursor + 1) i j lz.cursor = false →
      ¬ tiledMatch lz.data j lz.cursor i := by
    intro i j h1 h2 h3 h4 hf ht
    rw [(hiff i j h1 h2 h3 h4).2 ht] at hf
    exact Bool.noConfusion hf
  rcases match_search_spec lz.data lz.cursor (lz.data.length : Int)
      (Cookies.max 0 (lz.cursor - lz.dic_size + 1))
      (Cookies.min (lz.cursor + lz.la_buffer_size) ((lz.data.length : Int) - 1)) with
    ⟨hr, hnone⟩ | ⟨i, j, h1, h2, h3, h4, h5, h6, h7, hr⟩
  · left
    refine ⟨?_, fun i j h1 h2 h3 h4 => hno i j h1 h2 h3 h4 (hnone i j h1 h2 h3 h4)⟩
    simp only [longest_match_plc, hlen, hr]
    simp [hc2]
  · right
    refine ⟨i, j, h1, h2, h3, h4, (hiff i j h1 h2 h3 h4).1 h5,
      fun j0 hj1 hj2 => hno i j0 h1 h2 hj1 (by omega) (h6 j0 hj1 hj2),
      fun i2 j2 hi1 hi2 hj1 hj2 => hno i2 j2 (by omega) hi2 hj1 hj2 (h7 i2 j2 hi1 hi2 hj1 hj2),
      ?_⟩
    simp only [longest_match_plc, hlen, hr]
    have : ¬ (lz.cursor - j + 1 = -1 ∧ i - lz.cursor = -1) := by omega
    simp [this]

/-- The length of the emitted code is never negative, whatever the handle. -/
theorem longest_match_plc_len_nonneg (lz : LZ77) : 0 ≤ (longest_match_plc lz).len := by
  rcases match_search_spec lz.data lz.cursor (strlen lz.data : Int)
      (Cookies.max 0 (lz.cursor - lz.dic_size + 1))
      (Cookies.min (lz.cursor + lz.la_buffer_size) ((strlen lz.data : Int) - 1)) with
    ⟨hr, _⟩ | ⟨i, j, h1, _, _, h4, _, _, _, hr⟩
  · simp [longest_match_plc, hr]
  · have : ¬ (lz.cursor - j + 1 = -1 ∧ i - lz.cursor = -1) := by omega
    simp only [longest_match_plc, hr, this, if_false]
    omega

theorem charAt_ne_zero (data : List Nat) (h0 : ∀ x ∈ data, x ≠ 0) (i : Int) (h1 : 0 ≤ i)
    (h2 : i < data.length) : charAt data i ≠ 0 := by
  unfold charAt
  have hlt : i.toNat < data.length := by omega
  rw [List.getD_eq_getElem _ _ hlt]
  exact h0 _ (List.getElem_mem _)

theorem take_succ_charAt (data : List Nat) (i : Int) (h1 : 0 ≤ i) (h2 : i < data.length) :
    data.take (i + 1).toNat = data.take i.toNat ++ [charAt data i] := by
  have hlt : i.toNat < data.length := by omega
  have e : (i + 1).toNat = i.toNat + 1 := by omega
  rw [e, List.take_succ, charAt, List.getD_eq_getElem _ _ hlt, List.getElem?_eq_getElem hlt]
  rfl

/-- What one step does to the decoded output. At a cursor `c` with a byte ahead,
the emitted code has a trailing byte exactly when its match stops before the
last byte, that byte is `data[c + len + 1]`, and decoding the code after the
first `c + 1` bytes of the input gives the first `c + 1 + covered` bytes. -/
theorem step_decode (lz : LZ77) (h0 : ∀ x ∈ lz.data, x ≠ 0)
    (hc1 : -1 ≤ lz.cursor) (hc2 : lz.cursor + 1 < lz.data.length) :
    lz.cursor + (longest_match_plc lz).len + 1 ≤ lz.data.length ∧
    (longest_match_plc lz).c =
      (if lz.cursor + (longest_match_plc lz).len + 1 < (lz.data.length : Int)
        then charAt lz.data (lz.cursor + (longest_match_plc lz).len + 1) else 0) ∧
    ((longest_match_plc lz).c = 0 ↔
      lz.cursor + (longest_match_plc lz).len + 1 = lz.data.length) ∧
    decode_token (lz.data.take (lz.cursor + 1).toNat) (longest_match_plc lz) =
      lz.data.take (lz.cursor + 1 + (longest_match_plc lz).covered).toNat := by
  have hE := min_le_right (lz.cursor + lz.la_buffer_size) ((lz.data.length : Int) - 1)
  have hD := max_zero_nonneg (lz.cursor - lz.dic_size + 1)
  rcases longest_match_plc_spec lz h0 hc2 with
    ⟨hr, _⟩ | ⟨i, j, h1, h2, h3, h4, h5, _, _, hr⟩
  · have hne := charAt_ne_zero lz.data h0 (lz.cursor + 1) (by omega) hc2
    rw [hr]
    refine ⟨by simp; omega, ?_, ?_, ?_⟩
    · simp [hc2]
    · simp only [hne, false_iff]; simp; omega
    · simp only [decode_token, PLC.covered, hne, if_false]
      simp only [gt_iff_lt, lt_self_iff_false, if_false]
      have e : lz.cursor + 1 + (0 + 1) = lz.cursor + 1 + 1 := by ring
      rw [e, take_succ_charAt lz.data (lz.cursor + 1) (by omega) hc2]
  · rw [hr]
    have hpre : (lz.data.take (lz.cursor + 1).toNat ++
        stretch ((lz.data.take (lz.cursor + 1).toNat).drop
          ((lz.data.take (lz.cursor + 1).toNat).length - (lz.cursor - j + 1).toNat))
          (i - lz.cursor).toNat) = lz.data.take (i + 1).toNat := by
      have e1 : (lz.data.take (lz.cursor + 1).toNat).length - (lz.cursor - j + 1).toNat
          = j.toNat := by
        simp only [List.length_take]; omega
      have e2 : (lz.data.take (lz.cursor + 1).toNat).drop j.toNat = span lz.data j lz.cursor := by
        unfold span
        rw [List.drop_take]
        congr 1
        omega
      have e3 : (i + 1).toNat = (lz.cursor + 1).toNat + (i - lz.cursor).toNat := by omega
      have e4 : span lz.data (lz.cursor + 1) i =
          (lz.data.drop (lz.cursor + 1).toNat).take (i - lz.cursor).toNat := by
        unfold span; congr 1; omega
      rw [e1, e2, h5, e3, List.take_add, e4]
    by_cases hi : i + 1 < (lz.data.length : Int)
    · have hne := charAt_ne_zero lz.data h0 (i + 1) (by omega) hi
      have e5 : lz.cursor + (i - lz.cursor) + 1 = i + 1 := by ring
      refine ⟨by simp only []; omega, ?_, ?_, ?_⟩
      · simp only [e5, hi, if_true]
      · simp only [hi, if_true, hne, false_iff]; omega
      · simp only [decode_token, PLC.covered, hi, if_true, hne, if_false]
        have hpos : i - lz.cursor > 0 := by omega
        simp only [hpos, if_true]
        rw [hpre]
        have e : lz.cursor + 1 + (i - lz.cursor + 1) = i + 1 + 1 := by ring
        rw [e, take_succ_charAt lz.data (i + 1) (by omega) hi]
    · have e5 : lz.cursor + (i - lz.cursor) + 1 = i + 1 := by ring
      refine ⟨by simp only []; omega, ?_, ?_, ?_⟩
      · simp only [e5, hi, if_false]
      · simp only [hi, if_false, true_iff]; omega
      · simp only [decode_token, PLC.covered, hi, if_false, if_true]
        have hpos : i - lz.cursor > 0 := by omega
        simp only [hpos, if_true]
        rw [hpre]
        congr 2
        ring

/-! ## The loop of `lz77_compress` -/

theorem lz77_step_data (lz : LZ77) : (lz77_step lz).data = lz.data := rfl

theorem lz77_step_dic_size (lz : LZ77) : (lz77_step lz).dic_size = lz.dic_size := rfl

theorem lz77_step_la_buffer_size (lz : LZ77) :
    (lz77_step lz).la_buffer_size = lz.la_buffer_size := rfl

theorem lz77_step_link (lz : LZ77) :
    (lz77_step lz).link = lz.link ++ [longest_match_plc lz] := rfl

theorem lz77_step_cursor (lz : LZ77) :
    (lz77_step lz).cursor = lz.cursor + ((longest_match_plc lz).len + 1) := rfl

theorem state_at_succ (s : List Nat) (d b : Int) (k : Nat) :
    state_at s d b (k + 1) = lz77_step (state_at s d b k) := by
  unfold state_at
  exact Function.iterate_succ_apply' _ _ _

theorem state_at_data (s : List Nat) (d b : Int) (k : Nat) : (state_at s d b k).data = s := by
  induction k with
  | zero => rfl
  | succ k ih => rw [state_at_succ, lz77_step_data, ih]

theorem state_at_dic_size (s : List Nat) (d b : Int) (k : Nat) :
    (state_at s d b k).dic_size = d := by
  induction k with
  | zero => rfl
  | succ k ih => rw [state_at_succ, lz77_step_dic_size, ih]

theorem state_at_la_buffer_size (s : List Nat) (d b : Int) (k : Nat) :
    (state_at s d b k).la_buffer_size = b := by
  induction k with
  | zero => rfl
  | succ k ih => rw [state_at_succ, lz77_step_la_buffer_size, ih]

theorem state_at_link (s : List Nat) (d b : Int) (k : Nat) :
    (state_at s d b k).link = (List.range k).map (token_at s d b) := by
  induction k with
  | zero => rfl
  | succ k ih =>
    rw [state_at_succ, lz77_step_link, ih, List.range_succ, List.map_append]
    rfl

theorem cursor_at_zero (s : List Nat) (d b : Int) : cursor_at s d b 0 = -1 := rfl

theorem cursor_at_succ (s : List Nat) (d b : Int) (k : Nat) :
    cursor_at s d b (k + 1) = cursor_at s d b k + ((token_at s d b k).len + 1) := by
  unfold cursor_at token_at
  rw [state_at_succ, lz77_step_cursor]

theorem token_at_len_nonneg (s : List Nat) (d b : Int) (k : Nat) :
    0 ≤ (token_at s d b k).len :=
  longest_match_plc_len_nonneg _

theorem cursor_at_lower (s : List Nat) (d b : Int) (k : Nat) :
    (k : Int) - 1 ≤ cursor_at s d b k := by
  induction k with
  | zero => simp [cursor_at_zero]
  | succ k ih =>
    have := token_at_len_nonneg s d b k
    rw [cursor_at_succ]
    push_cast
    omega

/-- The loop returns the handle reached after `n` iterations when the loop
condition holds before each of them and fails after the last, given fuel for `n`
iterations. -/
theorem lz77_loop_iterate (length : Int) : ∀ (fuel : Nat) (lz : LZ77) (n : Nat), n ≤ fuel →
    (∀ k, k < n → (lz77_step^[k] lz).cursor < length - 1) →
    ¬ ((lz77_step^[n] lz).cursor < length - 1) →
    lz77_loop length fuel lz = some (lz77_step^[n] lz) := by
  intro fuel
  induction fuel with
  | zero =>
    intro lz n hn _ hex
    have : n = 0 := by omega
    subst this
    have hex2 : ¬ (lz.cursor < length - 1) := hex
    simp [lz77_loop, hex2]
  | succ fuel ih =>
    intro lz n hn hrun hex
    cases n with
    | zero =>
      have hex2 : ¬ (lz.cursor < length - 1) := hex
      simp [lz77_loop, hex2]
    | succ n =>
      have h0 : lz.cursor < length - 1 := hrun 0 (by omega)
      have hrec := ih (lz77_step lz) n (by omega)
        (fun k hk => by
          have := hrun (k + 1) (by omega)
          rwa [Function.iterate_succ_apply] at this)
        (by rwa [Function.iterate_succ_apply] at hex)
      simp only [lz77_loop, h0, if_true, hrec, Function.iterate_succ_apply]

/-- The run of the loop on a non-empty string: it makes `n` iterations with
`1 ≤ n ≤ N`; the loop condition holds before each and fails after the last. -/
theorem run_exists (s : List Nat) (d b : Int) (hne : s ≠ []) :
    ∃ n : Nat, 1 ≤ n ∧ n ≤ s.length ∧
      (∀ k, k < n → cursor_at s d b k < (s.length : Int) - 1) ∧
      ¬ (cursor_at s d b n < (s.length : Int) - 1) := by
  have hpos : 0 < s.length := List.length_pos.mpr hne
  have hex : ∃ n : Nat, ¬ (cursor_at s d b n < (s.length : Int) - 1) :=
    ⟨s.length, by have := cursor_at_lower s d b s.length; omega⟩
  refine ⟨Nat.find hex, ?_, ?_, ?_, Nat.find_spec hex⟩
  · rcases Nat.eq_zero_or_pos (Nat.find hex) with h | h
    · have := Nat.find_spec hex
      rw [h, cursor_at_zero] at this
      omega
    · exact h
  · exact Nat.find_min' hex (by have := cursor_at_lower s d b s.length; omega)
  · intro k hk
    exact not_not.mp (Nat.find_min hex hk)

/-- The loop of `lz77_compress` on the initial handle, given fuel `n` or more. -/
theorem lz77_loop_run (s : List Nat) (d b : Int) (n fuel : Nat) (hfuel : n ≤ fuel)
    (hrun : ∀ k, k < n → cursor_at s d b k < (s.length : Int) - 1)
    (hexit : ¬ (cursor_at s d b n < (s.length : Int) - 1)) :
    lz77_loop (s.length : Int) fuel (lz77_init s d b) = some (state_at s d b n) :=
  lz77_loop_iterate (s.length : Int) fuel (lz77_init s d b) n hfuel hrun hexit

/-- The result of `lz77_compress` on a valid input, given fuel `n` or more. -/
theorem lz77_compress_run (s : List Nat) (d b : Int) (n fuel : Nat)
    (hne : s ≠ []) (h0 : ∀ x ∈ s, x ≠ 0) (hd : 0 < d) (hb : 0 < b) (hfuel : n ≤ fuel)
    (hrun : ∀ k, k < n → cursor_at s d b k < (s.length : Int) - 1)
    (hexit : ¬ (cursor_at s d b n < (s.length : Int) - 1)) :
    lz77_compress fuel s d b = some (.compressed ((List.range n).map (token_at s d b))) := by
  have hpos : 0 < s.length := List.length_pos.mpr hne
  have h1 : ¬ ((s.length : Int) ≤ 0) := by omega
  have h2 : ¬ (d ≤ 0 ∨ b ≤ 0) := by omega
  simp only [lz77_compress, strlen_eq_length s h0, h1, h2, if_false,
    lz77_loop_run s d b n fuel hfuel hrun hexit, Option.map_some', state_at_link]

/-! ## Facts about the code of iteration `k` -/

/-- The per-step description `longest_match_plc_spec` at iteration `k` of a run. -/
theorem token_at_spec (s : List Nat) (d b : Int) (k : Nat) (h0 : ∀ x ∈ s, x ≠ 0)
    (hk : cursor_at s d b k < (s.length : Int) - 1) :
    (token_at s d b k = ⟨0, 0, charAt s (cursor_at s d b k + 1)⟩ ∧
      ∀ i j, cursor_at s d b k < i →
        i ≤ Cookies.min (cursor_at s d b k + b) ((s.length : Int) - 1) →
        Cookies.max 0 (cursor_at s d b k - d + 1) ≤ j → j ≤ cursor_at s d b k →
        ¬ tiledMatch s j (cursor_at s d b k) i) ∨
    (∃ i j, cursor_at s d b k < i ∧
      i ≤ Cookies.min (cursor_at s d b k + b) ((s.length : Int) - 1) ∧
      Cookies.max 0 (cursor_at s d b k - d + 1) ≤ j ∧ j ≤ cursor_at s d b k ∧
      tiledMatch s j (cursor_at s d b k) i ∧
      (∀ j0, Cookies.max 0 (cursor_at s d b k - d + 1) ≤ j0 → j0 < j →
        ¬ tiledMatch s j0 (cursor_at s d b k) i) ∧
      (∀ i2 j2, i < i2 →
        i2 ≤ Cookies.min (cursor_at s d b k + b) ((s.length : Int) - 1) →
        Cookies.max 0 (cursor_at s d b k - d + 1) ≤ j2 → j2 ≤ cursor_at s d b k →
        ¬ tiledMatch s j2 (cursor_at s d b k) i2) ∧
      token_at s d b k =
        ⟨cursor_at s d b k - j + 1, i - cursor_at s d b k,
          if i + 1 < (s.length : Int) then charAt s (i + 1) else 0⟩) := by
  have h := longest_match_plc_spec (state_at s d b k)
    (by rw [state_at_data]; exact h0) (by rw [state_at_data]; show cursor_at s d b k + 1 < _; omega)
  simp only [state_at_data, state_at_dic_size, state_at_la_buffer_size] at h
  exact h

/-- The per-step facts `step_decode` at iteration `k` of a run. -/
theorem token_at_decode (s : List Nat) (d b : Int) (k : Nat) (h0 : ∀ x ∈ s, x ≠ 0)
    (hk : cursor_at s d b k < (s.length : Int) - 1) :
    cursor_at s d b k + (token_at s d b k).len + 1 ≤ s.length ∧
    (token_at s d b k).c =
      (if cursor_at s d b k + (token_at s d b k).len + 1 < (s.length : Int)
        then charAt s (cursor_at s d b k + (token_at s d b k).len + 1) else 0) ∧
    ((token_at s d b k).c = 0 ↔
      cursor_at s d b k + (token_at s d b k).len + 1 = s.length) ∧
    decode_token (s.take (cursor_at s d b k + 1).toNat) (token_at s d b k) =
      s.take (cursor_at s d b k + 1 + (token_at s d b k).covered).toNat := by
  have hlow := cursor_at_lower s d b k
  have h := step_decode (state_at s d b k)
    (by rw [state_at_data]; exact h0)
    (by show -1 ≤ cursor_at s d b k; omega)
    (by rw [state_at_data]; show cursor_at s d b k + 1 < _; omega)
  simp only [state_at_data] at h
  exact h

theorem head?_span (data : List Nat) (a b : Int) (ha : 0 ≤ a) (hab : a ≤ b)
    (hb : b < data.length) : (span data a b).head? = some (charAt data a) := by
  have hlt : a.toNat < data.length := by omega
  obtain ⟨m, hm⟩ : ∃ m : Nat, (b + 1 - a).toNat = m + 1 := ⟨(b - a).toNat, by omega⟩
  unfold span charAt
  rw [hm, List.drop_eq_getElem_cons hlt, List.getD_eq_getElem _ _ hlt]
  rfl

theorem head?_stretch (sp : List Nat) (n : Nat) (hsp : sp ≠ []) (hn : 1 ≤ n) :
    (stretch sp n).head? = sp.head? := by
  have hlen : 0 < sp.length := List.length_pos.mpr hsp
  obtain ⟨a, rest, rfl⟩ := List.exists_cons_of_ne_nil hsp
  unfold stretch
  rcases Nat.eq_zero_or_pos (n / (a :: rest).length) with hq | hq
  · have hlt : n < (a :: rest).length := by
      rcases Nat.lt_or_ge n (a :: rest).length with h | h
      · exact h
      · have := Nat.div_pos h hlen
        omega
    obtain ⟨m, rfl⟩ : ∃ m, n = m + 1 := ⟨n - 1, by omega⟩
    rw [hq, Nat.mod_eq_of_lt hlt]
    rfl
  · obtain ⟨q, hq2⟩ : ∃ q, n / (a :: rest).length = q + 1 :=
      ⟨n / (a :: rest).length - 1, by omega⟩
    rw [hq2, List.replicate_succ]
    rfl

/-- A tiled match makes the first lookahead byte equal to the first dictionary byte. -/
theorem tiledMatch_first (data : List Nat) (j c i : Int) (hj : 0 ≤ j) (hjc : j ≤ c)
    (hci : c < i) (hi : i < data.length) (h : tiledMatch data j c i) :
    charAt data j = charAt data (c + 1) := by
  have hne : span data j c ≠ [] := by
    intro hnil
    have := length_span data j c hj (by omega)
    rw [hnil] at this
    simp at this
    omega
  have h1 := head?_stretch (span data j c) (i - c).toNat hne (by omega)
  rw [h, head?_span data (c + 1) i (by omega) (by omega) hi,
    head?_span data j c hj hjc (by omega)] at h1
  exact (Option.some.inj h1).symm

/-- Equal first bytes give a tiled match of length one. -/
theorem tiledMatch_one (data : List Nat) (j c : Int) (hj : 0 ≤ j) (hjc : j ≤ c)
    (hc : c + 1 < data.length) (h : charAt data j = charAt data (c + 1)) :
    tiledMatch data j c (c + 1) := by
  have hl1 : (span data j c).length = (c + 1 - j).toNat := length_span data j c hj (by omega)
  have hl2 : (span data (c + 1) (c + 1)).length = 1 := by
    rw [length_span data (c + 1) (c + 1) (by omega) hc]; omega
  have hpos : 0 < (span data j c).length := by omega
  have hne : span data j c ≠ [] := List.length_pos.mp hpos
  have e : (c + 1 - c).toNat = 1 := by omega
  have hl3 : (stretch (span data j c) 1).length = 1 := length_stretch _ _ hpos
  have hh1 := head?_stretch (span data j c) 1 hne (le_refl _)
  rw [head?_span data j c hj hjc (by omega)] at hh1
  have hh2 := head?_span data (c + 1) (c + 1) (by omega) (le_refl _) hc
  unfold tiledMatch
  rw [e]
  generalize stretch (span data j c) 1 = l1 at hl3 hh1 ⊢
  generalize span data (c + 1) (c + 1) = l2 at hl2 hh2 ⊢
  match l1, l2, hl3, hl2 with
  | [x], [y], _, _ =>
    simp only [List.head?_cons, Option.some.injEq] at hh1 hh2
    rw [hh1, hh2, h]

/-! ## The run on a valid input -/

/-- On a valid input the loop makes `n` iterations, `1 ≤ n ≤ N`, and
`lz77_compress` prints the codes of these iterations. -/
theorem run_tokens (s : List Nat) (d b : Int) (fuel : Nat) (hne : s ≠ [])
    (h0 : ∀ x ∈ s, x ≠ 0) (hd : 0 < d) (hb : 0 < b) (hfuel : s.length ≤ fuel) :
    ∃ n : Nat, 1 ≤ n ∧ n ≤ s.length ∧
      (∀ k, k < n → cursor_at s d b k < (s.length : Int) - 1) ∧
      ¬ (cursor_at s d b n < (s.length : Int) - 1) ∧
      lz77_compress fuel s d b = some (.compressed ((List.range n).map (token_at s d b))) := by
  obtain ⟨n, h1, h2, hrun, hexit⟩ := run_exists s d b hne
  exact ⟨n, h1, h2, hrun, hexit,
    lz77_compress_run s d b n fuel hne h0 hd hb (by omega) hrun hexit⟩

/-! ## The claims -/

theorem getElem?_flatten_replicate (sp : List Nat) :
    ∀ (q k : Nat), k < q * sp.length →
      ((List.replicate q sp).flatten)[k]? = sp[k % sp.length]? := by
  intro q
  induction q with
  | zero => intro k hk; simp at hk
  | succ q ih =>
    intro k hk
    rw [List.replicate_succ, List.flatten_cons]
    rcases Nat.lt_or_ge k sp.length with h | h
    · rw [List.getElem?_append_left h, Nat.mod_eq_of_lt h]
    · rw [List.getElem?_append_right h, ih (k - sp.length) (by
        rw [Nat.succ_mul] at hk; omega), ← Nat.mod_eq_sub_mod h]

/-- Byte `k` of the stretched span is byte `k % |span|` of the span. -/
theorem getElem?_stretch (sp : List Nat) (n k : Nat) (hsp : 0 < sp.length) (hk : k < n) :
    (stretch sp n)[k]? = sp[k % sp.length]? := by
  unfold stretch
  have hdm := Nat.div_add_mod n sp.length
  have hlen : ((List.replicate (n / sp.length) sp).flatten).length = n / sp.length * sp.length := by
    simp [List.length_flatten, List.map_replicate, List.sum_replicate]
  have hmodlt : n % sp.length < sp.length := Nat.mod_lt _ hsp
  rcases Nat.lt_or_ge k (n / sp.length * sp.length) with h | h
  · rw [List.getElem?_append_left (by rw [hlen]; exact h)]
    exact getElem?_flatten_replicate sp _ _ h
  · rw [List.getElem?_append_right (by rw [hlen]; exact h), hlen]
    have hk2 : k - n / sp.length * sp.length < n % sp.length := by
      rw [Nat.mul_comm] at h ⊢; omega
    rw [List.getElem?_take_of_lt hk2]
    congr 1
    have e : k = (k - n / sp.length * sp.length) + (n / sp.length) * sp.length := by omega
    conv_rhs => rw [e, Nat.add_mul_mod_self_right]
    exact (Nat.mod_eq_of_lt (by omega)).symm

theorem getElem?_span (data : List Nat) (a b : Int) (k : Nat) (hk : k < (b + 1 - a).toNat) :
    (span data a b)[k]? = data[a.toNat + k]? := by
  unfold span
  rw [List.getElem?_take_of_lt hk, List.getElem?_drop]

/-- A window of the string equals the stretched span exactly when it agrees
with it byte by byte, the span being read modulo its length. -/
theorem window_eq_stretch_iff (data : List Nat) (a Lq : Nat) (c d : Int) (hc : 0 ≤ c)
    (hcd : c ≤ d) (hd : d < data.length) :
    (data.drop a).take Lq = stretch (span data c d) Lq ↔
      ∀ k, k < Lq → data[a + k]? = data[c.toNat + k % (d + 1 - c).toNat]? := by
  have hlen : (span data c d).length = (d + 1 - c).toNat := length_span data c d hc hd
  have hpos : 0 < (span data c d).length := by omega
  have hmod : ∀ k, k % (d + 1 - c).toNat < (d + 1 - c).toNat := fun k => Nat.mod_lt _ (by omega)
  constructor
  · intro h k hk
    have h1 := congrArg (fun l => l[k]?) h
    simp only [] at h1
    rw [List.getElem?_take_of_lt hk, List.getElem?_drop, getElem?_stretch _ _ _ hpos hk, hlen,
      getElem?_span _ _ _ _ (hmod k)] at h1
    exact h1
  · intro h
    apply List.ext_getElem?
    intro k
    rcases Nat.lt_or_ge k Lq with hk | hk
    · rw [List.getElem?_take_of_lt hk, List.getElem?_drop, getElem?_stretch _ _ _ hpos hk, hlen,
        getElem?_span _ _ _ _ (hmod k)]
      exact h k hk
    · rw [List.getElem?_eq_none (by simp only [List.length_take, List.length_drop]; omega),
        List.getElem?_eq_none (by rw [length_stretch _ _ hpos]; exact hk)]

theorem getElem?_eq_iff_charAt (data : List Nat) (x y : Int) (hx : 0 ≤ x)
    (hx2 : x < data.length) (hy2 : y < data.length) :
    data[x.toNat]? = data[y.toNat]? ↔ charAt data x = charAt data y := by
  have h1 : x.toNat < data.length := by omega
  have h2 : y.toNat < data.length := by omega
  unfold charAt
  rw [List.getD_eq_getElem _ _ h1, List.getD_eq_getElem _ _ h2, List.getElem?_eq_getElem h1,
    List.getElem?_eq_getElem h2]
  exact Option.some_inj

theorem toNat_emod (k m : Int) (hk : 0 ≤ k) (hm : 0 < m) :
    (k % m).toNat = k.toNat % m.toNat := by
  obtain ⟨kn, rfl⟩ := Int.eq_ofNat_of_zero_le hk
  obtain ⟨mn, rfl⟩ := Int.eq_ofNat_of_zero_le (le_of_lt hm)
  have e : ((kn : Int) % (mn : Int)) = ((kn % mn : Nat) : Int) := (Int.natCast_mod kn mn).symm
  rw [e, Int.toNat_ofNat, Int.toNat_ofNat, Int.toNat_ofNat]

/-- The comparator, byte by byte: on two non-empty spans inside a string
without NUL it returns true exactly when every lookahead byte `a + k` equals the
dictionary byte `c + k % Ls`. -/
theorem substring_equal_pointwise (str : List Nat) (h0 : ∀ x ∈ str, x ≠ 0) (a b c d : Int)
    (ha : 0 ≤ a) (hab : a ≤ b) (hb : b < str.length) (hc : 0 ≤ c) (hcd : c ≤ d)
    (hd : d < str.length) :
    substring_equal str a b c d = true ↔
      ∀ k : Int, 0 ≤ k → k < b - a + 1 →
        charAt str (a + k) = charAt str (c + k % (d - c + 1)) := by
  rw [substring_equal_eq str a b c d hab hc hcd hd, decide_eq_true_eq]
  have hlen : (span str c d).length = (d + 1 - c).toNat := length_span str c d hc hd
  rw [strncmp_eq_zero_iff (b - a + 1).toNat _ _ (length_stretch _ _ (by omega))
    (by simp only [List.length_drop]; omega)
    (fun x hx => h0 x (List.mem_of_mem_drop (List.mem_of_mem_take hx)))]
  rw [window_eq_stretch_iff str a.toNat (b - a + 1).toNat c d hc hcd hd]
  have hmpos : 0 < d - c + 1 := by omega
  have key : ∀ k : Int, 0 ≤ k → k < b - a + 1 →
      (str[a.toNat + k.toNat]? = str[c.toNat + k.toNat % (d + 1 - c).toNat]? ↔
        charAt str (a + k) = charAt str (c + k % (d - c + 1))) := by
    intro k hk1 hk2
    have hnn := Int.emod_nonneg k (ne_of_gt hmpos)
    have hlt := Int.emod_lt_of_pos k hmpos
    have e1 : a.toNat + k.toNat = (a + k).toNat := by omega
    have e2 : c.toNat + k.toNat % (d + 1 - c).toNat = (c + k % (d - c + 1)).toNat := by
      have e3 : (d + 1 - c).toNat = (d - c + 1).toNat := by congr 1; omega
      rw [e3, ← toNat_emod k (d - c + 1) hk1 hmpos]
      omega
    rw [e1, e2]
    exact getElem?_eq_iff_charAt str _ _ (by omega) (by omega) (by omega)
  constructor
  · intro h k hk1 hk2
    exact (key k hk1 hk2).1 (h k.toNat (by omega))
  · intro h k hk
    have := (key (k : Int) (by omega) (by omega)).2 (h (k : Int) (by omega) (by omega))
    simpa using this

theorem substring_equal_of_empty (str : List Nat) (a b c d : Int)
    (h : b - a + 1 ≤ 0 ∨ d - c + 1 ≤ 0) : substring_equal str a b c d = false := by
  unfold substring_equal
  simp only [h, if_true]

/-- The comparator against the stretched span of the specification, for
arbitrary non-empty spans inside a string without NUL. -/
theorem substring_equal_stretch (str : List Nat) (h0 : ∀ x ∈ str, x ≠ 0) (a b c d : Int)
    (ha : 0 ≤ a) (hab : a ≤ b) (hb : b < str.length) (hc : 0 ≤ c) (hcd : c ≤ d)
    (hd : d < str.length) :
    substring_equal str a b c d = true ↔
      span str a b = stretch (span str c d) (b - a + 1).toNat := by
  rw [substring_equal_eq str a b c d hab hc hcd hd, decide_eq_true_eq]
  have hlen : (span str c d).length = (d + 1 - c).toNat := length_span str c d hc hd
  rw [strncmp_eq_zero_iff (b - a + 1).toNat _ _ (length_stretch _ _ (by omega))
    (by simp only [List.length_drop]; omega)
    (fun x hx => h0 x (List.mem_of_mem_drop (List.mem_of_mem_take hx)))]
  have e : (b + 1 - a).toNat = (b - a + 1).toNat := by congr 1; omega
  unfold span
  rw [e]

/-! ## The claims, continued -/

/-- C11 (comparator reference): for every string without NUL and spans `[a, b]`
(length `Lq = b - a + 1`) and `[c, d]` (length `Ls = d - c + 1`) inside it,
`substring_equal` returns true if and only if `Lq ≥ 1`, `Ls ≥ 1` and every byte
`a + k`, `0 ≤ k < Lq`, equals the byte `c + (k mod Ls)`; equivalently, the
lookahead span equals `Lq / Ls` copies of the dictionary span followed by its
first `Lq mod Ls` bytes. When either span has length `≤ 0` it returns false. -/
theorem C11_comparator_reference (str : List Nat) (a b c d : Int) (h0 : ∀ x ∈ str, x ≠ 0)
    (ha : 0 ≤ a) (hb : b < str.length) (hc : 0 ≤ c) (hd : d < str.length) :
    (substring_equal str a b c d = true ↔
      1 ≤ b - a + 1 ∧ 1 ≤ d - c + 1 ∧
        ∀ k : Int, 0 ≤ k → k < b - a + 1 →
          charAt str (a + k) = charAt str (c + k % (d - c + 1))) ∧
    (substring_equal str a b c d = true ↔
      1 ≤ b - a + 1 ∧ 1 ≤ d - c + 1 ∧
        span str a b = stretch (span str c d) (b - a + 1).toNat) ∧
    (b - a + 1 ≤ 0 ∨ d - c + 1 ≤ 0 → substring_equal str a b c d = false) := by
  refine ⟨?_, ?_, substring_equal_of_empty str a b c d⟩
  · by_cases h : b - a + 1 ≤ 0 ∨ d - c + 1 ≤ 0
    · rw [substring_equal_of_empty str a b c d h]
      constructor
      · intro hf; exact Bool.noConfusion hf
      · rintro ⟨h1, h2, _⟩; omega
    · rw [substring_equal_pointwise str h0 a b c d ha (by omega) hb hc (by omega) hd]
      constructor
      · intro hp; exact ⟨by omega, by omega, hp⟩
      · rintro ⟨_, _, hp⟩; exact hp
  · by_cases h : b - a + 1 ≤ 0 ∨ d - c + 1 ≤ 0
    · rw [substring_equal_of_empty str a b c d h]
      constructor
      · intro hf; exact Bool.noConfusion hf
      · rintro ⟨h1, h2, _⟩; omega
    · rw [substring_equal_stretch str h0 a b c d ha (by omega) hb hc (by omega) hd]
      constructor
      · intro hp; exact ⟨by omega, by omega, hp⟩
      · rintro ⟨_, _, hp⟩; exact hp

theorem C11_comparator_reference_witness :
    (∀ x ∈ ([97, 98, 97, 98, 97] : List Nat), x ≠ 0) ∧ (0 : Int) ≤ 2 ∧
    (4 : Int) < (([97, 98, 97, 98, 97] : List Nat).length : Int) ∧ (0 : Int) ≤ 0 ∧
    (1 : Int) < (([97, 98, 97, 98, 97] : List Nat).length : Int) ∧
    (substring_equal [97, 98, 97, 98, 97] 2 4 0 1 = true ↔
      (1 : Int) ≤ 4 - 2 + 1 ∧ (1 : Int) ≤ 1 - 0 + 1 ∧
        ∀ k : Int, 0 ≤ k → k < 4 - 2 + 1 →
          charAt [97, 98, 97, 98, 97] (2 + k) =
            charAt [97, 98, 97, 98, 97] (0 + k % (1 - 0 + 1))) ∧
    (substring_equal [97, 98, 97, 98, 97] 2 4 0 1 = true ↔
      (1 : Int) ≤ 4 - 2 + 1 ∧ (1 : Int) ≤ 1 - 0 + 1 ∧
        span [97, 98, 97, 98, 97] 2 4 =
          stretch (span [97, 98, 97, 98, 97] 0 1) ((4 : Int) - 2 + 1).toNat) ∧
    ((4 : Int) - 2 + 1 ≤ 0 ∨ (1 : Int) - 0 + 1 ≤ 0 →
      substring_equal [97, 98, 97, 98, 97] 2 4 0 1 = false) :=
  ⟨by decide, by decide, by decide, by decide, by decide,
    C11_comparator_reference [97, 98, 97, 98, 97] 2 4 0 1 (by decide) (by decide) (by decide)
      (by decide) (by decide)⟩

/-- The first code of a run is the raw first byte. -/
theorem token_at_zero (s : List Nat) (d b : Int) (hne : s ≠ []) (h0 : ∀ x ∈ s, x ≠ 0) :
    token_at s d b 0 = ⟨0, 0, charAt s 0⟩ := by
  have hpos : 0 < s.length := List.length_pos.mpr hne
  have hD := max_zero_nonneg (cursor_at s d b 0 - d + 1)
  rcases token_at_spec s d b 0 h0 (by rw [cursor_at_zero]; omega) with
    ⟨hr, _⟩ | ⟨i, j, _, _, h3, h4, _, _, _, _⟩
  · rw [cursor_at_zero] at hr
    exact hr
  · rw [cursor_at_zero] at h4
    omega

/-- The code of an iteration is the raw next byte exactly when that byte does
not occur in the dictionary range. -/
theorem token_at_fallback_iff (s : List Nat) (d b : Int) (k : Nat) (h0 : ∀ x ∈ s, x ≠ 0)
    (hb : 0 < b) (hk : cursor_at s d b k < (s.length : Int) - 1) :
    token_at s d b k = ⟨0, 0, charAt s (cursor_at s d b k + 1)⟩ ↔
      ∀ j, dicStart d (cursor_at s d b k) ≤ j → j ≤ cursor_at s d b k →
        charAt s j ≠ charAt s (cursor_at s d b k + 1) := by
  have hD := max_zero_nonneg (cursor_at s d b k - d + 1)
  have hE := min_le_right (cursor_at s d b k + b) ((s.length : Int) - 1)
  rcases token_at_spec s d b k h0 hk with
    ⟨hr, hnone⟩ | ⟨i, j, h1, h2, h3, h4, h5, _, _, hr⟩
  · refine ⟨fun _ j hj1 hj2 heq => ?_, fun _ => hr⟩
    have hj0 : 0 ≤ j := le_trans hD hj1
    refine hnone (cursor_at s d b k + 1) j (by omega) ?_ hj1 hj2
      (tiledMatch_one s j (cursor_at s d b k) hj0 hj2 (by omega) heq)
    simp only [Cookies.min]
    split <;> omega
  · refine ⟨fun htok => ?_, fun hno => ?_⟩
    · rw [hr] at htok
      have hp := congrArg PLC.p htok
      simp only [] at hp
      omega
    · exact absurd (tiledMatch_first s j (cursor_at s d b k) i (le_trans hD h3) h4 h1
        (by omega) h5) (hno j h3 h4)

theorem charAt_eq_getElem (s : List Nat) (k : Nat) (hk : k < s.length) :
    charAt s (k : Int) = s[k] := by
  unfold charAt
  rw [Int.toNat_ofNat, List.getD_eq_getElem _ _ hk]

/-- C18 (validation precedence): when the input is empty and at the same time
`dic_size ≤ 0` or `buffer_size ≤ 0`, `lz77_compress` reports the empty input,
not the invalid capacity; the invalid capacity is reported only for non-empty
inputs. -/
theorem C18_validation_precedence (s : List Nat) (d b : Int) (fuel : Nat) :
    (strlen s = 0 → d ≤ 0 ∨ b ≤ 0 →
      lz77_compress fuel s d b = some .emptyInput ∧
      lz77_compress fuel s d b ≠ some .invalidCapacity) ∧
    (lz77_compress fuel s d b = some .invalidCapacity → 0 < strlen s) := by
  constructor
  · intro h _
    have e : lz77_compress fuel s d b = some .emptyInput := by
      simp [lz77_compress, h]
    rw [e]
    exact ⟨rfl, by decide⟩
  · intro h
    rcases Nat.eq_zero_or_pos (strlen s) with hz | hz
    · have e : lz77_compress fuel s d b = some .emptyInput := by
        simp [lz77_compress, hz]
      rw [e] at h
      exact absurd h (by decide)
    · exact hz

theorem C18_validation_precedence_witness :
    (lz77_compress 0 [] 0 (-1) = some .emptyInput ∧
      lz77_compress 0 [] 0 (-1) ≠ some .invalidCapacity) ∧
    0 < strlen [97, 98] :=
  ⟨(C18_validation_precedence [] 0 (-1) 0).1 (by decide) (by decide),
    (C18_validation_precedence [97, 98] 0 2 0).2 (by decide)⟩

/-- C14 (scenario B): for every single-byte input `[c]` and every pair of
positive capacities, `lz77_compress` prints exactly the one token
`(0, 0, c)`. -/
theorem C14_scenario_B (c : Nat) (d b : Int) (fuel : Nat) (hc : c ≠ 0) (hd : 0 < d)
    (hb : 0 < b) (hfuel : 1 ≤ fuel) :
    lz77_compress fuel [c] d b = some (.compressed [⟨0, 0, c⟩]) := by
  have h0 : ∀ x ∈ [c], x ≠ 0 := by
    intro x hx
    rw [List.mem_singleton] at hx
    rw [hx]; exact hc
  have ht0 : token_at [c] d b 0 = ⟨0, 0, c⟩ := token_at_zero [c] d b (by simp) h0
  have hc1 : cursor_at [c] d b 1 = 0 := by
    rw [cursor_at_succ, cursor_at_zero, ht0]; rfl
  have hout := lz77_compress_run [c] d b 1 fuel (by simp) h0 hd hb hfuel
    (fun k hk => by
      have : k = 0 := by omega
      subst this
      rw [cursor_at_zero]; simp)
    (by rw [hc1]; simp)
  rw [hout]
  simp [List.range_succ, ht0]

theorem C14_scenario_B_witness :
    (97 : Nat) ≠ 0 ∧ (0 : Int) < 7 ∧ (0 : Int) < 2 ∧ 1 ≤ 1 ∧
    lz77_compress 1 [97] 7 2 = some (.compressed [⟨0, 0, 97⟩]) :=
  ⟨by decide, by decide, by decide, by decide,
    C14_scenario_B 97 7 2 1 (by decide) (by decide) (by decide) (by decide)⟩

/-- C15 (scenario C, no repetition): for every non-empty input whose bytes are
pairwise distinct and every pair of positive capacities, `lz77_compress` prints
exactly `N` tokens and the `k`-th token is `(0, 0, input[k])`. -/
theorem C15_scenario_C (s : List Nat) (d b : Int) (fuel : Nat) (hne : s ≠ [])
    (h0 : ∀ x ∈ s, x ≠ 0) (hd : 0 < d) (hb : 0 < b) (hfuel : s.length ≤ fuel)
    (hnd : s.Nodup) :
    lz77_compress fuel s d b = some (.compressed (s.map (fun c => (⟨0, 0, c⟩ : PLC)))) ∧
    (s.map (fun c => (⟨0, 0, c⟩ : PLC))).length = s.length := by
  have htok : ∀ k : Nat, k < s.length → cursor_at s d b k = (k : Int) - 1 →
      token_at s d b k = ⟨0, 0, charAt s k⟩ := by
    intro k hk hcur
    have hlt : cursor_at s d b k < (s.length : Int) - 1 := by omega
    have h := (token_at_fallback_iff s d b k h0 hb hlt).2 (by
      intro j hj1 hj2 heq
      have hD := max_zero_nonneg (cursor_at s d b k - d + 1)
      have hj0 : 0 ≤ j := le_trans hD hj1
      obtain ⟨jn, rfl⟩ := Int.eq_ofNat_of_zero_le hj0
      have hjk : jn < k := by omega
      have e : cursor_at s d b k + 1 = (k : Int) := by omega
      rw [e, charAt_eq_getElem s jn (by omega), charAt_eq_getElem s k hk] at heq
      have := (List.Nodup.getElem_inj_iff hnd).1 heq
      omega)
    have e : cursor_at s d b k + 1 = (k : Int) := by omega
    rw [e] at h
    exact h
  have hcur : ∀ k : Nat, k ≤ s.length → cursor_at s d b k = (k : Int) - 1 := by
    intro k
    induction k with
    | zero => intro _; rw [cursor_at_zero]; simp
    | succ k ih =>
      intro hk
      have h1 := ih (by omega)
      rw [cursor_at_succ, htok k (by omega) h1, h1]
      push_cast
      ring
  have hout := lz77_compress_run s d b s.length fuel hne h0 hd hb hfuel
    (fun k hk => by rw [hcur k (by omega)]; omega)
    (by rw [hcur s.length (le_refl _)]; omega)
  refine ⟨?_, by simp⟩
  rw [hout]
  congr 2
  apply List.ext_getElem
  · simp
  · intro k h1 h2
    simp only [List.length_map, List.length_range] at h1
    simp only [List.getElem_map, List.getElem_range]
    rw [htok k h1 (hcur k (by omega)), charAt_eq_getElem s k h1]

theorem C15_scenario_C_witness :
    ([97, 98, 99] : List Nat) ≠ [] ∧ (∀ x ∈ ([97, 98, 99] : List Nat), x ≠ 0) ∧
    (0 : Int) < 2 ∧ (0 : Int) < 2 ∧ ([97, 98, 99] : List Nat).length ≤ 3 ∧
    ([97, 98, 99] : List Nat).Nodup ∧
    lz77_compress 3 [97, 98, 99] 2 2 =
      some (.compressed [⟨0, 0, 97⟩, ⟨0, 0, 98⟩, ⟨0, 0, 99⟩]) ∧
    ([⟨0, 0, 97⟩, ⟨0, 0, 98⟩, ⟨0, 0, 99⟩] : List PLC).length = 3 :=
  ⟨by decide, by decide, by decide, by decide, by decide, by decide,
    C15_scenario_C [97, 98, 99] 2 2 3 (by decide) (by decide) (by decide) (by decide)
      (by decide) (by decide)⟩

theorem forUpTo_of_lt {σ : Type} (lo hi : Int) (body : σ → Int → σ) (init : σ)
    (h : hi < lo) : forUpTo lo hi body init = init := by
  unfold forUpTo
  have e : (hi + 1 - lo).toNat = 0 := by omega
  rw [e]
  rfl

theorem forUpTo_succ_left {σ : Type} (lo hi : Int) (body : σ → Int → σ) (init : σ)
    (h : lo ≤ hi) : forUpTo lo hi body init = forUpTo (lo + 1) hi body (body init lo) := by
  unfold forUpTo
  obtain ⟨n, hn⟩ : ∃ n : Nat, (hi + 1 - (lo + 1)).toNat = n := ⟨_, rfl⟩
  have e : (hi + 1 - lo).toNat = n + 1 := by omega
  rw [e, hn, List.range_succ_eq_map, List.foldl_cons, List.foldl_map]
  have e0 : lo + ((0 : Nat) : Int) = lo := by simp
  rw [e0]
  congr 1
  funext st k
  congr 1
  push_cast
  ring

/-- A fuelled machine loop over `lo .. hi` computes the fold of the embedding
when its counter does not wrap and its body succeeds under an invariant. -/
theorem forLoop_m_eq {σ : Type} (w : Int → Int) (lo0 hi : Int) (cond : Int → Bool)
    (hcond : ∀ i, cond i = decide (i ≤ hi)) (bodym : σ → Int → Option σ)
    (body : σ → Int → σ) (P : Int → σ → Prop)
    (hw : ∀ x, lo0 ≤ x → x ≤ hi → w (x + 1) = x + 1)
    (hbody : ∀ x st, lo0 ≤ x → x ≤ hi → P x st →
      bodym st x = some (body st x) ∧ P (x + 1) (body st x)) :
    ∀ (fuel : Nat) (lo : Int) (st : σ), lo0 ≤ lo → P lo st → (hi + 1 - lo).toNat ≤ fuel →
      forLoop_m w cond bodym fuel lo st = some (forUpTo lo hi body st) := by
  intro fuel
  induction fuel with
  | zero =>
    intro lo st _ _ hf
    have hlt : hi < lo := by omega
    have hc : cond lo = false := by rw [hcond]; simp; omega
    rw [forUpTo_of_lt lo hi body st hlt]
    simp [forLoop_m, hc]
  | succ fuel ih =>
    intro lo st hlo hP hf
    by_cases hle : lo ≤ hi
    · have hc : cond lo = true := by rw [hcond]; simpa using hle
      obtain ⟨hb1, hb2⟩ := hbody lo st hlo hle hP
      simp only [forLoop_m, hc, if_true, hb1, Option.some_bind, hw lo hlo hle]
      rw [ih (lo + 1) (body st lo) (by omega) hb2 (by omega), forUpTo_succ_left lo hi body st hle]
    · have hc : cond lo = false := by rw [hcond]; simp; omega
      rw [forUpTo_of_lt lo hi body st (by omega)]
      simp [forLoop_m, hc]

theorem charAt?_eq (str : List Nat) (i : Int) (h1 : 0 ≤ i) (h2 : i < str.length) :
    charAt? str i = some (charAt str i) := by
  have hlt : i.toNat < str.length := by omega
  unfold charAt? charAt
  rw [if_pos h1, List.getElem?_eq_getElem hlt, List.getD_eq_getElem _ _ hlt]

theorem memread?_eq (str : List Nat) (start n : Int) (h1 : 0 ≤ start) (h2 : 0 ≤ n)
    (h3 : start + n ≤ str.length) : memread? str start n = some (memread str start n) := by
  unfold memread? memread
  by_cases hn : n ≤ 0
  · have e : n.toNat = 0 := by omega
    simp only [hn, if_true, e, List.take_zero]
  · have hc : 0 ≤ start ∧ start + n ≤ str.length := ⟨h1, h3⟩
    simp only [hn, if_false, hc, and_self, if_true]

theorem length_memread (str : List Nat) (start n : Int) (h1 : 0 ≤ start)
    (h3 : start + n ≤ str.length) : (memread str start n).length = n.toNat := by
  simp only [memread, List.length_take, List.length_drop]
  omega

theorem strncmp?_eq (str : List Nat) (start : Int) (buf : List Nat) (h1 : 0 ≤ start) :
    ∀ (n k : Nat), start + (k : Int) + (n : Int) ≤ str.length → k + n ≤ buf.length →
      strncmp? str start buf k n =
        some (strncmp (str.drop (start.toNat + k)) (buf.drop k) n) := by
  intro n
  induction n with
  | zero => intro k _ _; simp [strncmp?, strncmp]
  | succ n ih =>
    intro k hs hb
    have hk1 : start.toNat + k < str.length := by omega
    have hk2 : k < buf.length := by omega
    have e1 : charAt? str (start + (k : Int)) = some (str[start.toNat + k]) := by
      rw [charAt?_eq str _ (by omega) (by omega)]
      unfold charAt
      have e : (start + (k : Int)).toNat = start.toNat + k := by omega
      rw [e, List.getD_eq_getElem _ _ hk1]
    have e2 : buf[k]? = some buf[k] := List.getElem?_eq_getElem hk2
    have e3 : str.drop (start.toNat + k) = str[start.toNat + k] :: str.drop (start.toNat + k + 1) :=
      List.drop_eq_getElem_cons hk1
    have e4 : buf.drop k = buf[k] :: buf.drop (k + 1) := List.drop_eq_getElem_cons hk2
    have hrec := ih (k + 1) (by push_cast; omega) (by omega)
    rw [show start.toNat + (k + 1) = start.toNat + k + 1 from rfl] at hrec
    simp only [strncmp?, e1, e2, e3, e4, strncmp, List.headD_cons, List.tail_cons, hrec]
    split <;> [rfl; (split <;> rfl)]

/-- On non-empty spans inside the string the machine comparator makes no read
or write out of bounds, does not run out of fuel and returns what the embedding
returns, provided `w` rounds nothing in `-M .. M - 1` and `N < M`. -/
theorem substring_equal_m_eq (w : Int → Int) (M : Int)
    (hw : ∀ x, -M ≤ x → x ≤ M - 1 → w x = x) (fuel : Nat) (str : List Nat) (a b c d : Int)
    (ha : 0 ≤ a) (hab : a ≤ b) (hb : b < str.length) (hc : 0 ≤ c) (hcd : c ≤ d)
    (hd : d < str.length) (hN : (str.length : Int) ≤ M - 1) (hfuel : str.length ≤ fuel) :
    substring_equal_m w fuel str a b c d = some (substring_equal str a b c d) := by
  obtain ⟨n, hn⟩ : ∃ n : Nat, b - a + 1 = (n : Int) := ⟨(b - a + 1).toNat, by omega⟩
  obtain ⟨m, hm⟩ : ∃ m : Nat, d - c + 1 = (m : Int) := ⟨(d - c + 1).toNat, by omega⟩
  have hm0 : 0 < m := by omega
  have hnN : n ≤ str.length := by omega
  obtain ⟨q, hq⟩ : ∃ q : Nat, n / m = q := ⟨_, rfl⟩
  obtain ⟨r, hr⟩ : ∃ r : Nat, n % m = r := ⟨_, rfl⟩
  obtain ⟨qm, hqm⟩ : ∃ qm : Nat, q * m = qm := ⟨_, rfl⟩
  have hdiv : Int.tdiv (b - a + 1) (d - c + 1) = (q : Int) := by
    rw [hn, hm, Int.tdiv_eq_ediv (by omega) (by omega), ← Int.natCast_div, hq]
  have hmod : Int.tmod (b - a + 1) (d - c + 1) = (r : Int) := by
    rw [hn, hm, Int.tmod_eq_emod (by omega) (by omega), ← Int.natCast_mod, hr]
  have hq1 : q ≤ n := by rw [← hq]; exact Nat.div_le_self n m
  have hq3 : qm + r = n := by
    rw [← hqm, ← hq, ← hr, Nat.mul_comm]; exact Nat.div_add_mod n m
  have hr1 : r < m := by rw [← hr]; exact Nat.mod_lt n hm0
  have hs1 : w (w (b - a) + 1) = b - a + 1 := by
    rw [hw (b - a) (by omega) (by omega), hw (b - a + 1) (by omega) (by omega)]
  have hs2 : w (w (d - c) + 1) = d - c + 1 := by
    rw [hw (d - c) (by omega) (by omega), hw (d - c + 1) (by omega) (by omega)]
  have hrepw : w (Int.tdiv (b - a + 1) (d - c + 1)) = Int.tdiv (b - a + 1) (d - c + 1) := by
    rw [hdiv]; exact hw _ (by omega) (by omega)
  have hlastw : w (Int.tmod (b - a + 1) (d - c + 1)) = Int.tmod (b - a + 1) (d - c + 1) := by
    rw [hmod]; exact hw _ (by omega) (by omega)
  have hprod : Int.tdiv (b - a + 1) (d - c + 1) * (d - c + 1) = (qm : Int) := by
    rw [hdiv, hm, ← hqm]; push_cast; ring
  have hsize : w (w (Int.tdiv (b - a + 1) (d - c + 1) * (d - c + 1)) +
      Int.tmod (b - a + 1) (d - c + 1)) = b - a + 1 := by
    rw [hprod, hmod, hw (qm : Int) (by omega) (by omega),
      hw ((qm : Int) + (r : Int)) (by omega) (by omega), hn]
    omega
  have hchunklen : (memread str c (d - c + 1)).length = m := by
    rw [length_memread str c (d - c + 1) hc (by omega), hm]; simp
  have hloop : forLoop_m w (fun i => decide (i < Int.tdiv (b - a + 1) (d - c + 1)))
      (fun cur _ => memcpy_m (b - a + 1) str c (d - c + 1) cur) fuel 0 [] =
      some (forUpTo 0 (Int.tdiv (b - a + 1) (d - c + 1) - 1)
        (fun cur _ => cur ++ memread str c (d - c + 1)) []) := by
    apply forLoop_m_eq w 0 (Int.tdiv (b - a + 1) (d - c + 1) - 1) _
      (fun i => by simp only [decide_eq_decide]; omega) _ _
      (fun x cur => cur.length = x.toNat * m)
    · intro x hx1 hx2
      rw [hdiv] at hx2
      exact hw _ (by omega) (by omega)
    · intro x cur hx1 hx2 hP
      rw [hdiv] at hx2
      obtain ⟨xn, rfl⟩ := Int.eq_ofNat_of_zero_le hx1
      simp only [Int.toNat_ofNat] at hP
      have hxle : xn + 1 ≤ q := by omega
      have hmul : (xn + 1) * m ≤ q * m := Nat.mul_le_mul_right m hxle
      have hexp : (xn + 1) * m = xn * m + m := by ring
      rw [hqm] at hmul
      constructor
      · have hchk : ((cur.length + (memread str c (d - c + 1)).length : Nat) : Int) ≤
            b - a + 1 := by
          rw [hchunklen, hP, hn]
          have : xn * m + m ≤ n := by omega
          exact_mod_cast this
        simp only [memcpy_m, memread?_eq str c (d - c + 1) hc (by omega) (by omega),
          Option.some_bind, hchk, if_true]
      · have e : ((xn : Int) + 1).toNat = xn + 1 := by omega
        simp only [List.length_append, hchunklen, hP, e]
        omega
    · exact le_refl _
    · simp
    · rw [hdiv]
      omega
  have hcurlen : (forUpTo 0 (Int.tdiv (b - a + 1) (d - c + 1) - 1)
      (fun cur _ => cur ++ memread str c (d - c + 1)) ([] : List Nat)).length = qm := by
    have hcount : (Int.tdiv (b - a + 1) (d - c + 1) - 1 + 1 - 0).toNat = q := by
      rw [hdiv]; omega
    simp only [forUpTo, hcount, foldl_append_chunk, List.length_flatten, List.map_replicate,
      List.sum_replicate, hchunklen, smul_eq_mul]
    exact hqm
  have htaillen : (memread str c (Int.tmod (b - a + 1) (d - c + 1))).length = r := by
    rw [length_memread str c (Int.tmod (b - a + 1) (d - c + 1)) hc (by rw [hmod]; omega), hmod]
    simp
  have hcopy : memcpy_m (b - a + 1) str c (Int.tmod (b - a + 1) (d - c + 1))
      (forUpTo 0 (Int.tdiv (b - a + 1) (d - c + 1) - 1)
        (fun cur _ => cur ++ memread str c (d - c + 1)) []) =
      some (forUpTo 0 (Int.tdiv (b - a + 1) (d - c + 1) - 1)
        (fun cur _ => cur ++ memread str c (d - c + 1)) [] ++
          memread str c (Int.tmod (b - a + 1) (d - c + 1))) := by
    have hchk : (((forUpTo 0 (Int.tdiv (b - a + 1) (d - c + 1) - 1)
        (fun cur _ => cur ++ memread str c (d - c + 1)) ([] : List Nat)).length +
        (memread str c (Int.tmod (b - a + 1) (d - c + 1))).length : Nat) : Int) ≤ b - a + 1 := by
      rw [hcurlen, htaillen, hq3, hn]
    have hrd := memread?_eq str c (Int.tmod (b - a + 1) (d - c + 1)) hc
      (by rw [hmod]; omega) (by rw [hmod]; omega)
    simp only [memcpy_m, hrd, Option.some_bind, hchk, if_true]
  have hcmp : strncmp? str a
      (forUpTo 0 (Int.tdiv (b - a + 1) (d - c + 1) - 1)
        (fun cur _ => cur ++ memread str c (d - c + 1)) [] ++
          memread str c (Int.tmod (b - a + 1) (d - c + 1))) 0 (b - a + 1).toNat =
      some (strncmp (str.drop a.toNat)
        (forUpTo 0 (Int.tdiv (b - a + 1) (d - c + 1) - 1)
          (fun cur _ => cur ++ memread str c (d - c + 1)) [] ++
            memread str c (Int.tmod (b - a + 1) (d - c + 1))) (b - a + 1).toNat) := by
    have h := strncmp?_eq str a
      (forUpTo 0 (Int.tdiv (b - a + 1) (d - c + 1) - 1)
        (fun cur _ => cur ++ memread str c (d - c + 1)) [] ++
          memread str c (Int.tmod (b - a + 1) (d - c + 1))) ha (b - a + 1).toNat 0
      (by push_cast; omega)
      (by rw [List.length_append, hcurlen, htaillen, hq3]; omega)
    simpa using h
  have h1 : ¬ (b - a + 1 ≤ 0 ∨ d - c + 1 ≤ 0) := by omega
  unfold substring_equal_m substring_equal
  simp only [hs1, hs2, h1, if_false, hrepw, hlastw, hsize, hloop, Option.some_bind, hcopy, hcmp,
    Option.map_some']

theorem match_body_m_eq (w : Int → Int) (M : Int)
    (hw : ∀ x, -M ≤ x → x ≤ M - 1 → w x = x) (fuel : Nat) (data : List Nat)
    (cursor i j : Int) (st : Best) (hj : 0 ≤ j) (hjc : j ≤ cursor) (hci : cursor < i)
    (hi : i < data.length) (hN : (data.length : Int) ≤ M - 1) (hfuel : data.length ≤ fuel) :
    match_body_m w fuel data cursor (data.length : Int) i st j =
      some (match_body data cursor (data.length : Int) i st j) := by
  have e1 : w (cursor + 1) = cursor + 1 := hw (cursor + 1) (by omega) (by omega)
  have e2 : w (i - cursor) = i - cursor := hw (i - cursor) (by omega) (by omega)
  have e3 : w (i + 1) = i + 1 := hw (i + 1) (by omega) (by omega)
  have e4 : w (w (cursor - j) + 1) = cursor - j + 1 := by
    rw [hw (cursor - j) (by omega) (by omega), hw (cursor - j + 1) (by omega) (by omega)]
  have hse := substring_equal_m_eq w M hw fuel data (cursor + 1) i j cursor (by omega) (by omega)
    hi hj hjc (by omega) hN hfuel
  unfold match_body_m match_body
  simp only [e1, e2, e3, e4, hse, Option.some_bind]
  by_cases hcond : substring_equal data (cursor + 1) i j cursor = true ∧ i - cursor > st.l
  · simp only [hcond, and_self, if_true]
    by_cases hnext : i + 1 < (data.length : Int)
    · simp only [hnext, if_true, charAt?_eq data (i + 1) (by omega) hnext, Option.map_some']
    · simp only [hnext, if_false, Option.map_some']
  · simp only [hcond, if_false]

theorem match_search_m_eq (w : Int → Int) (M : Int)
    (hw : ∀ x, -M ≤ x → x ≤ M - 1 → w x = x) (fuel : Nat) (data : List Nat)
    (cursor dic_start end_buffer : Int) (hc : -1 ≤ cursor) (hD : 0 ≤ dic_start)
    (hE : end_buffer ≤ (data.length : Int) - 1) (hcN : cursor + 1 ≤ data.length)
    (hN : (data.length : Int) ≤ M - 1) (hfuel : data.length ≤ fuel) :
    match_search_m w fuel data cursor (data.length : Int) dic_start end_buffer =
      some (match_search data cursor (data.length : Int) dic_start end_buffer) := by
  have e1 : w (cursor + 1) = cursor + 1 := hw (cursor + 1) (by omega) (by omega)
  unfold match_search_m match_search
  rw [e1]
  apply forLoop_m_eq w (cursor + 1) end_buffer _ (fun i => rfl) _ _ (fun _ _ => True)
  · intro x hx1 hx2
    exact hw (x + 1) (by omega) (by omega)
  · intro i st hi1 hi2 _
    refine ⟨?_, trivial⟩
    apply forLoop_m_eq w dic_start cursor _ (fun j => rfl) _ _ (fun _ _ => True)
    · intro x hx1 hx2
      exact hw (x + 1) (by omega) (by omega)
    · intro j st1 hj1 hj2 _
      exact ⟨match_body_m_eq w M hw fuel data cursor i j st1 (by omega) hj2 (by omega)
        (by omega) hN hfuel, trivial⟩
    · exact le_refl _
    · trivial
    · omega
  · exact le_refl _
  · trivial
  · omega

/-- At a cursor with a byte ahead the machine step makes no read or write out
of bounds, does not run out of fuel and emits the code of the embedding. -/
theorem longest_match_plc_m_eq (w : Int → Int) (M : Int)
    (hw : ∀ x, -M ≤ x → x ≤ M - 1 → w x = x) (fuel : Nat) (lz : LZ77)
    (h0 : ∀ x ∈ lz.data, x ≠ 0) (hc1 : -1 ≤ lz.cursor) (hc2 : lz.cursor + 1 < lz.data.length)
    (hd : 0 < lz.dic_size) (hdM : lz.dic_size ≤ M - 1) (hb : 0 < lz.la_buffer_size)
    (hNb : (lz.data.length : Int) + lz.la_buffer_size ≤ M - 1) (hfuel : lz.data.length ≤ fuel) :
    longest_match_plc_m w fuel lz = some (longest_match_plc lz) := by
  have hlen : strlen lz.data = lz.data.length := strlen_eq_length _ h0
  have e0 : w ((lz.data.length : Nat) : Int) = (lz.data.length : Int) :=
    hw _ (by omega) (by omega)
  have e1 : w (w (lz.cursor - lz.dic_size) + 1) = lz.cursor - lz.dic_size + 1 := by
    rw [hw (lz.cursor - lz.dic_size) (by omega) (by omega),
      hw (lz.cursor - lz.dic_size + 1) (by omega) (by omega)]
  have e2 : w (lz.cursor + lz.la_buffer_size) = lz.cursor + lz.la_buffer_size :=
    hw _ (by omega) (by omega)
  have e3 : w ((lz.data.length : Int) - 1) = (lz.data.length : Int) - 1 :=
    hw _ (by omega) (by omega)
  have e4 : w (lz.cursor + 1) = lz.cursor + 1 := hw _ (by omega) (by omega)
  have hD := max_zero_nonneg (lz.cursor - lz.dic_size + 1)
  have hE := min_le_right (lz.cursor + lz.la_buffer_size) ((lz.data.length : Int) - 1)
  have hs := match_search_m_eq w M hw fuel lz.data lz.cursor
    (Cookies.max 0 (lz.cursor - lz.dic_size + 1))
    (Cookies.min (lz.cursor + lz.la_buffer_size) ((lz.data.length : Int) - 1))
    hc1 hD hE (by omega) (by omega) hfuel
  unfold longest_match_plc_m longest_match_plc
  simp only [hlen, e0, e1, e2, e3, e4, hs, Option.some_bind, hc2, if_true,
    charAt?_eq lz.data (lz.cursor + 1) (by omega) hc2, Option.map_some']
  split <;> rfl

theorem lz77_step_m_eq (w : Int → Int) (M : Int)
    (hw : ∀ x, -M ≤ x → x ≤ M - 1 → w x = x) (fuel : Nat) (lz : LZ77)
    (h0 : ∀ x ∈ lz.data, x ≠ 0) (hc1 : -1 ≤ lz.cursor) (hc2 : lz.cursor + 1 < lz.data.length)
    (hd : 0 < lz.dic_size) (hdM : lz.dic_size ≤ M - 1) (hb : 0 < lz.la_buffer_size)
    (hNb : (lz.data.length : Int) + lz.la_buffer_size ≤ M - 1) (hfuel : lz.data.length ≤ fuel) :
    lz77_step_m w fuel lz = some (lz77_step lz) := by
  have hle := (step_decode lz h0 hc1 hc2).1
  have hnn := longest_match_plc_len_nonneg lz
  have e1 : w ((longest_match_plc lz).len + 1) = (longest_match_plc lz).len + 1 :=
    hw _ (by omega) (by omega)
  have e2 : w (lz.cursor + ((longest_match_plc lz).len + 1)) =
      lz.cursor + ((longest_match_plc lz).len + 1) := hw _ (by omega) (by omega)
  unfold lz77_step_m
  rw [longest_match_plc_m_eq w M hw fuel lz h0 hc1 hc2 hd hdM hb hNb hfuel]
  simp only [Option.map_some', e1, e2]
  rfl

theorem lz77_loop_m_eq (w : Int → Int) (M : Int)
    (hw : ∀ x, -M ≤ x → x ≤ M - 1 → w x = x) (inner : Nat) (s : List Nat) (d b : Int)
    (h0 : ∀ x ∈ s, x ≠ 0) (hd : 0 < d) (hdM : d ≤ M - 1) (hb : 0 < b)
    (hNb : (s.length : Int) + b ≤ M - 1) (hinner : s.length ≤ inner) :
    ∀ (fuel : Nat) (lz : LZ77), lz.data = s → lz.dic_size = d → lz.la_buffer_size = b →
      -1 ≤ lz.cursor →
      lz77_loop_m w inner (s.length : Int) fuel lz = lz77_loop (s.length : Int) fuel lz := by
  have e3 : w ((s.length : Int) - 1) = (s.length : Int) - 1 := hw _ (by omega) (by omega)
  intro fuel
  induction fuel with
  | zero =>
    intro lz _ _ _ _
    simp only [lz77_loop_m, lz77_loop, e3]
  | succ fuel ih =>
    intro lz h1 h2 h3 h4
    by_cases hc : lz.cursor < (s.length : Int) - 1
    · have hstep := lz77_step_m_eq w M hw inner lz (by rw [h1]; exact h0) h4
        (by rw [h1]; omega) (by rw [h2]; exact hd) (by rw [h2]; exact hdM)
        (by rw [h3]; exact hb) (by rw [h1, h3]; exact hNb) (by rw [h1]; exact hinner)
      have hnn := longest_match_plc_len_nonneg lz
      simp only [lz77_loop_m, lz77_loop, e3, hc, if_true, hstep, Option.some_bind]
      exact ih (lz77_step lz) (by rw [lz77_step_data, h1]) (by rw [lz77_step_dic_size, h2])
        (by rw [lz77_step_la_buffer_size, h3]) (by rw [lz77_step_cursor]; omega)
    · simp only [lz77_loop_m, lz77_loop, e3, hc, if_false]

/-- The machine model prints what the embedding prints, on every valid input
whose sizes `w` does not round. -/
theorem lz77_compress_m_eq (w : Int → Int) (M : Int)
    (hw : ∀ x, -M ≤ x → x ≤ M - 1 → w x = x) (s : List Nat) (d b : Int) (fuel : Nat)
    (h0 : ∀ x ∈ s, x ≠ 0) (hd : 0 < d) (hdM : d ≤ M - 1) (hb : 0 < b)
    (hNb : (s.length : Int) + b ≤ M - 1) (hfuel : s.length ≤ fuel) :
    lz77_compress_m w fuel s d b = lz77_compress fuel s d b := by
  have hlen : strlen s = s.length := strlen_eq_length s h0
  have e0 : w ((s.length : Nat) : Int) = (s.length : Int) := hw _ (by omega) (by omega)
  unfold lz77_compress_m lz77_compress
  simp only [hlen, e0]
  rw [lz77_loop_m_eq w M hw fuel s d b h0 hd hdM hb hNb hfuel fuel (lz77_init s d b) rfl rfl rfl
    (le_refl _)]

theorem wrap32_eq (x : Int) (h1 : -2147483648 ≤ x) (h2 : x ≤ 2147483648 - 1) :
    wrap32 x = x := by
  unfold wrap32
  omega

/-- C19 (no 32-bit overflow under a size bound): with C `int` as 32-bit
two's-complement with wrap-around, for every non-empty input of length `N`
without NUL byte, positive capacities that are `int` values and
`N + buffer_size ≤ 2^31 - 1`, the wrapped program prints the token sequence of
the unbounded-integer model, and at every step the intermediate integers
`cursor + la_buffer_size`, `cursor - dic_size + 1`, `i - cursor`,
`cursor - j + 1` and `cursor + match_len + 1` equal their unbounded values. -/
theorem C19_no_overflow (s : List Nat) (d b : Int) (fuel : Nat) (hne : s ≠ [])
    (h0 : ∀ x ∈ s, x ≠ 0) (hd : 0 < d) (hb : 0 < b) (hfuel : s.length ≤ fuel)
    (hdM : d ≤ 2147483647) (hNb : (s.length : Int) + b ≤ 2147483647) :
    lz77_compress_m wrap32 fuel s d b = lz77_compress fuel s d b ∧
    ∃ n : Nat,
      lz77_compress fuel s d b = some (.compressed ((List.range n).map (token_at s d b))) ∧
      ∀ k, k < n →
        wrap32 (cursor_at s d b k + b) = cursor_at s d b k + b ∧
        wrap32 (wrap32 (cursor_at s d b k - d) + 1) = cursor_at s d b k - d + 1 ∧
        (∀ i : Int, cursor_at s d b k < i → i ≤ lookaheadEnd b s.length (cursor_at s d b k) →
          wrap32 (i - cursor_at s d b k) = i - cursor_at s d b k) ∧
        (∀ j : Int, dicStart d (cursor_at s d b k) ≤ j → j ≤ cursor_at s d b k →
          wrap32 (wrap32 (cursor_at s d b k - j) + 1) = cursor_at s d b k - j + 1) ∧
        wrap32 (cursor_at s d b k + wrap32 ((token_at s d b k).len + 1)) =
          cursor_at s d b k + (token_at s d b k).len + 1 := by
  refine ⟨lz77_compress_m_eq wrap32 2147483648 wrap32_eq s d b fuel h0 hd (by omega) hb
    (by omega) hfuel, ?_⟩
  obtain ⟨n, _, _, hrun, _, hout⟩ := run_tokens s d b fuel hne h0 hd hb hfuel
  refine ⟨n, hout, fun k hk => ?_⟩
  have hlow := cursor_at_lower s d b k
  have hck := hrun k hk
  have hD := max_zero_nonneg (cursor_at s d b k - d + 1)
  have hE := min_le_right (cursor_at s d b k + b) ((s.length : Int) - 1)
  have hle := (token_at_decode s d b k h0 hck).1
  have hnn := token_at_len_nonneg s d b k
  refine ⟨wrap32_eq _ (by omega) (by omega), ?_, fun i hi1 hi2 => ?_, fun j hj1 hj2 => ?_, ?_⟩
  · rw [wrap32_eq (cursor_at s d b k - d) (by omega) (by omega)]
    exact wrap32_eq _ (by omega) (by omega)
  · have : i ≤ (s.length : Int) - 1 := le_trans hi2 hE
    exact wrap32_eq _ (by omega) (by omega)
  · have hj0 : 0 ≤ j := le_trans hD hj1
    rw [wrap32_eq (cursor_at s d b k - j) (by omega) (by omega)]
    exact wrap32_eq _ (by omega) (by omega)
  · rw [wrap32_eq ((token_at s d b k).len + 1) (by omega) (by omega),
      wrap32_eq _ (by omega) (by omega)]
    ring

theorem C19_no_overflow_witness :
    ([97, 98, 97, 98, 97] : List Nat) ≠ [] ∧ (∀ x ∈ ([97, 98, 97, 98, 97] : List Nat), x ≠ 0) ∧
    (0 : Int) < 4 ∧ (0 : Int) < 3 ∧ ([97, 98, 97, 98, 97] : List Nat).length ≤ 5 ∧ ((4 : Int) ≤ 2147483647) ∧ ((([97, 98, 97, 98, 97] : List Nat).length : Int) + 3 ≤ 2147483647) ∧
    (lz77_compress_m wrap32 5 ([97, 98, 97, 98, 97] : List Nat) 4 3 = lz77_compress 5 ([97, 98, 97, 98, 97] : List Nat) 4 3 ∧
    ∃ n : Nat,
      lz77_compress 5 ([97, 98, 97, 98, 97] : List Nat) 4 3 = some (.compressed ((List.range n).map (token_at ([97, 98, 97, 98, 97] : List Nat) 4 3))) ∧
      ∀ k, k < n →
        wrap32 (cursor_at ([97, 98, 97, 98, 97] : List Nat) 4 3 k + 3) = cursor_at ([97, 98, 97, 98, 97] : List Nat) 4 3 k + 3 ∧
        wrap32 (wrap32 (cursor_at ([97, 98, 97, 98, 97] : List Nat) 4 3 k - 4) + 1) = cursor_at ([97, 98, 97, 98, 97] : List Nat) 4 3 k - 4 + 1 ∧
        (∀ i : Int, cursor_at ([97, 98, 97, 98, 97] : List Nat) 4 3 k < i → i ≤ lookaheadEnd 3 ([97, 98, 97, 98, 97] : List Nat).length (cursor_at ([97, 98, 97, 98, 97] : List Nat) 4 3 k) →
          wrap32 (i - cursor_at ([97, 98, 97, 98, 97] : List Nat) 4 3 k) = i - cursor_at ([97, 98, 97, 98, 97] : List Nat) 4 3 k) ∧
        (∀ j : Int, dicStart 4 (cursor_at ([97, 98, 97, 98, 97] : List Nat) 4 3 k) ≤ j → j ≤ cursor_at ([97, 98, 97, 98, 97] : List Nat) 4 3 k →
          wrap32 (wrap32 (cursor_at ([97, 98, 97, 98, 97] : List Nat) 4 3 k - j) + 1) = cursor_at ([97, 98, 97, 98, 97] : List Nat) 4 3 k - j + 1) ∧
        wrap32 (cursor_at ([97, 98, 97, 98, 97] : List Nat) 4 3 k + wrap32 ((token_at ([97, 98, 97, 98, 97] : List Nat) 4 3 k).len + 1)) =
          cursor_at ([97, 98, 97, 98, 97] : List Nat) 4 3 k + (token_at ([97, 98, 97, 98, 97] : List Nat) 4 3 k).len + 1) :=
  ⟨by decide, by decide, by decide, by decide, by decide, by decide, by decide,
    C19_no_overflow ([97, 98, 97, 98, 97] : List Nat) 4 3 5 (by decide) (by decide) (by decide)
      (by decide) (by decide) (by decide) (by decide)⟩

/-! ## The Huffman coder: writes through node pointers -/

theorem anc_le (par lch rch : Nat → Option Nat) (len : Nat) (hS : PreShape par lch rch len)
    (x n : Nat) (h : Anc par x n) : x ≤ n := by
  induction h with
  | refl x => exact le_refl _
  | step x p n hp _ ih =>
    have := (hS.par_lt x p hp).1
    omega

theorem anc_cases (par : Nat → Option Nat) (x n : Nat) (h : Anc par x n) :
    x = n ∨ ∃ p, par x = some p ∧ Anc par p n := by
  cases h with
  | refl => exact Or.inl rfl
  | step _ p _ hp hrest => exact Or.inr ⟨p, hp, hrest⟩

theorem anc_linear (par : Nat → Option Nat) (x a b : Nat) (ha : Anc par x a)
    (hb : Anc par x b) : Anc par a b ∨ Anc par b a := by
  induction ha with
  | refl x => exact Or.inl hb
  | step x p a hxp hpa ih =>
    rcases anc_cases par x b hb with e | ⟨q, hxq, hqb⟩
    · right
      rw [← e]
      exact Anc.step x p a hxp hpa
    · rw [hxp] at hxq
      rw [← Option.some.inj hxq] at hqb
      exact ih hqb

/-- Two different children of one node have no common descendant. -/
theorem anc_siblings (par lch rch : Nat → Option Nat) (len : Nat)
    (hS : PreShape par lch rch len) (a b n x : Nat) (hab : a ≠ b) (hpa : par a = some n)
    (hpb : par b = some n) (hxa : Anc par x a) (hxb : Anc par x b) : False := by
  have ha := (hS.par_lt a n hpa).1
  have hb := (hS.par_lt b n hpb).1
  rcases anc_linear par x a b hxa hxb with h | h
  · rcases anc_cases par a b h with e | ⟨p, hp, hrest⟩
    · exact hab e
    · rw [hpa] at hp
      rw [← Option.some.inj hp] at hrest
      have := anc_le par lch rch len hS n b hrest
      omega
  · rcases anc_cases par b a h with e | ⟨p, hp, hrest⟩
    · exact hab e.symm
    · rw [hpb] at hp
      rw [← Option.some.inj hp] at hrest
      have := anc_le par lch rch len hS n a hrest
      omega

end Cookies
